import Mathlib

set_option maxHeartbeats 1000000
set_option maxRecDepth 4000

namespace Canon

/-!
# A verification model of the canonical wide-event lifecycle engine

JavaScript runtime values are modelled as a tagged union `Val`.  Plain
objects live in an append-only heap (`Store`, a list of field lists) and
are referenced through `Val.vRef`, so that sharing, copying and
"never mutates its input" claims are expressible.  Arrays are modelled
as immutable inline lists (no operation of this code base mutates array
elements in place).  JavaScript numbers are modelled as rationals;
prototype chains are not modelled, so property lookup means own-key
lookup on the field list.
-/

/-- A JavaScript-like runtime value.  Plain objects are heap references. -/
inductive Val where
  | vNull
  | vUndef
  | vStr (s : String)
  | vNum (q : ℚ)
  | vBool (b : Bool)
  | vArr (elems : List Val)
  | vRef (r : Nat)
deriving Repr

/-- Induction on `Val` with a membership hypothesis for array elements. -/
def Val.recMem (motive : Val → Prop) (hNull : motive .vNull) (hUndef : motive .vUndef)
    (hStr : ∀ s, motive (.vStr s)) (hNum : ∀ q, motive (.vNum q))
    (hBool : ∀ b, motive (.vBool b)) (hRef : ∀ r, motive (.vRef r))
    (hArr : ∀ l, (∀ v, v ∈ l → motive v) → motive (.vArr l)) : ∀ v, motive v
  | .vNull => hNull
  | .vUndef => hUndef
  | .vStr s => hStr s
  | .vNum q => hNum q
  | .vBool b => hBool b
  | .vRef r => hRef r
  | .vArr l => hArr l (fun v hv =>
      Val.recMem motive hNull hUndef hStr hNum hBool hRef hArr v)
termination_by v => sizeOf v
decreasing_by
  have h1 : sizeOf v < sizeOf l := List.sizeOf_lt_of_mem hv
  simp only [Val.vArr.sizeOf_spec]
  omega

mutual

/-- Boolean equality on values. -/
def valBeq : Val → Val → Bool
  | .vNull, .vNull => true
  | .vUndef, .vUndef => true
  | .vStr s, .vStr t => decide (s = t)
  | .vNum a, .vNum b => decide (a = b)
  | .vBool a, .vBool b => decide (a = b)
  | .vRef a, .vRef b => decide (a = b)
  | .vArr xs, .vArr ys => valListBeq xs ys
  | _, _ => false

/-- Boolean equality on lists of values. -/
def valListBeq : List Val → List Val → Bool
  | [], [] => true
  | x :: xs, y :: ys => valBeq x y && valListBeq xs ys
  | _, _ => false

end

theorem valBeq_iff : ∀ a b : Val, valBeq a b = true ↔ a = b := by
  intro a
  induction a using Val.recMem with
  | hNull => intro b; cases b <;> simp [valBeq]
  | hUndef => intro b; cases b <;> simp [valBeq]
  | hStr s => intro b; cases b <;> simp [valBeq]
  | hNum q => intro b; cases b <;> simp [valBeq]
  | hBool x => intro b; cases b <;> simp [valBeq]
  | hRef r => intro b; cases b <;> simp [valBeq]
  | hArr l ih =>
      intro b
      cases b <;> simp only [valBeq] <;> try simp
      rename_i ys
      constructor
      · intro h
        suffices hs : ∀ xs ys, (∀ v, v ∈ xs → ∀ b, valBeq v b = true ↔ v = b) →
            valListBeq xs ys = true → xs = ys by
          exact hs l ys ih h
        intro xs
        induction xs with
        | nil => intro ys _ h; cases ys <;> simp_all [valListBeq]
        | cons x xs ihx =>
            intro ys hmem h
            cases ys with
            | nil => simp [valListBeq] at h
            | cons y ys =>
                simp only [valListBeq, Bool.and_eq_true] at h
                have h1 := (hmem x (by simp) y).mp h.1
                have h2 := ihx ys (fun v hv b => hmem v (by simp [hv]) b) h.2
                rw [h1, h2]
      · intro h
        cases h
        suffices hs : ∀ xs, (∀ v, v ∈ xs → ∀ b, valBeq v b = true ↔ v = b) →
            valListBeq xs xs = true by exact hs l ih
        intro xs
        induction xs with
        | nil => intro _; simp [valListBeq]
        | cons x xs ihx =>
            intro hmem
            simp only [valListBeq, Bool.and_eq_true]
            exact ⟨(hmem x (by simp) x).mpr rfl,
                   ihx (fun v hv b => hmem v (by simp [hv]) b)⟩

instance : DecidableEq Val := fun a b => decidable_of_iff (valBeq a b = true) (valBeq_iff a b)

/-- A plain object is its list of own properties, in insertion order. -/
abbrev JObj := List (String × Val)

/-- The heap: object `r` is `σ.getD r []`.  All operations of the modelled
code allocate by appending, except the event builder's in-place field
assignments, which update one existing entry. -/
abbrev Store := List JObj

/-- Dereference an object (JavaScript has no dangling references; reading an
out-of-range index yields the empty object). -/
def getObj (σ : Store) (r : Nat) : JObj := σ.getD r []

/-- Allocate a fresh object, returning the new store and its reference. -/
def alloc (σ : Store) (o : JObj) : Store × Nat := (σ ++ [o], σ.length)

/-- Own-property lookup: `some v` when the key is present (even with value
`undefined`), `none` when absent. -/
def lookupField {α : Type} : List (String × α) → String → Option α
  | [], _ => none
  | (k, v) :: rest, key => if k = key then some v else lookupField rest key

/-- JavaScript property assignment on an object literal: an existing key keeps
its position, a new key is appended. -/
def setField {α : Type} : List (String × α) → String → α → List (String × α)
  | [], key, v => [(key, v)]
  | (k, w) :: rest, key, v =>
      if k = key then (k, v) :: rest else (k, w) :: setField rest key v

/-- `isPlainObject` from `src/utils/merge.ts`: not `null`, not an array, and
a plain-prototype object — in this model exactly the heap references. -/
def isPlainObject : Val → Bool
  | .vRef _ => true
  | _ => false

/-- Array own-key lookup, as used by the `in` operator and property access:
the own keys of an array are `"length"` and the canonical indices. -/
def arrLookup (elems : List Val) (key : String) : Option Val :=
  if key = "length" then some (.vNum (elems.length : ℚ))
  else
    match key.toNat? with
    | some n => if toString n = key ∧ n < elems.length then elems.get? n else none
    | none => none

/-- Property access `v[key]` restricted to own keys (`none` both for absent
keys and for non-object bases). -/
def propLookup (σ : Store) : Val → String → Option Val
  | .vRef r, key => lookupField (getObj σ r) key
  | .vArr elems, key => arrLookup elems key
  | _, _ => none

/-! ## `src/utils/merge.ts` -/

/-- JavaScript `s.split(sep)` for a one-character separator, computed on the
character list (`String.splitOn` itself does not evaluate inside the
kernel); all splits of this code base use one-character separators. -/
def splitOnChar (c : Char) (s : String) : List String :=
  (s.toList.splitOn c).map String.mk

/-- JavaScript `s.includes(c)` for a one-character needle. -/
def strContainsChar (s : String) (c : Char) : Bool := s.toList.contains c

/-- `path.split('.')` — like JavaScript, splitting `""` yields `[""]`. -/
def splitPath (path : String) : List String := splitOnChar '.' path

/-- `getPath` from `src/utils/merge.ts`: walk the dot-path, returning
`undefined` as soon as the current value is `null` or not an object. -/
def getPathParts (σ : Store) : Val → List String → Val
  | current, [] => current
  | current, part :: rest =>
      match current with
      | .vRef r => getPathParts σ ((lookupField (getObj σ r) part).getD .vUndef) rest
      | .vArr elems => getPathParts σ ((arrLookup elems part).getD .vUndef) rest
      | _ => (.vUndef)

/-- `getPath(obj, path)` on an arbitrary root value. -/
def getPathVal (σ : Store) (root : Val) (path : String) : Val :=
  getPathParts σ root (splitPath path)

/-- Own property names of `Object.prototype` (the ECMAScript standard set,
including the Annex B accessors present in Node).  Every plain object of
the store arises from an object literal, spread or `structuredClone`, so
its prototype is `Object.prototype` and the JavaScript `in` operator finds
these names on every such object. -/
def OBJECT_PROTOTYPE_KEYS : List String :=
  ["constructor", "hasOwnProperty", "isPrototypeOf", "propertyIsEnumerable",
   "toLocaleString", "toString", "valueOf", "__proto__",
   "__defineGetter__", "__defineSetter__", "__lookupGetter__",
   "__lookupSetter__"]

/-- Own property names of `Array.prototype` other than `length` (the
ECMAScript 2023 standard method set); arrays inherit these, and through
`Array.prototype` also the `Object.prototype` names. -/
def ARRAY_PROTOTYPE_KEYS : List String :=
  ["at", "concat", "constructor", "copyWithin", "entries", "every", "fill",
   "filter", "find", "findIndex", "findLast", "findLastIndex", "flat",
   "flatMap", "forEach", "includes", "indexOf", "join", "keys",
   "lastIndexOf", "map", "pop", "push", "reduce", "reduceRight", "reverse",
   "shift", "slice", "some", "sort", "splice", "toLocaleString",
   "toReversed", "toSorted", "toSpliced", "toString", "unshift", "values",
   "with"]

/-- A value reached while walking a dot-path with the `in` operator: a
value of the store, or one of the host objects reached through the
prototype chain — `Object.prototype`, `Array.prototype`, or an inherited
built-in function. -/
inductive HostVal where
  | ofVal (v : Val)
  | objProto
  | arrProto
  | hostFn

/-- The JavaScript `part in current` check (specification side): an own
key, or a property inherited through the prototype chain; `false` when
`current` is `null` or not of type object (the loop guard). -/
def jsInB (σ : Store) : HostVal → String → Bool
  | .ofVal (.vRef r), k =>
      (lookupField (getObj σ r) k).isSome || OBJECT_PROTOTYPE_KEYS.contains k
  | .ofVal (.vArr elems), k =>
      (arrLookup elems k).isSome || ARRAY_PROTOTYPE_KEYS.contains k ||
        OBJECT_PROTOTYPE_KEYS.contains k
  | .objProto, k => OBJECT_PROTOTYPE_KEYS.contains k
  | .arrProto, k =>
      decide (k = "length") || ARRAY_PROTOTYPE_KEYS.contains k ||
        OBJECT_PROTOTYPE_KEYS.contains k
  | _, _ => false

/-- The JavaScript property read `current[part]` (specification side): an
own key yields its value; an inherited `__proto__` yields the prototype
object; every other inherited name yields a built-in function. -/
def jsReadH (σ : Store) : HostVal → String → HostVal
  | .ofVal (.vRef r), k =>
      match lookupField (getObj σ r) k with
      | some v => .ofVal v
      | none => if k = "__proto__" then .objProto else .hostFn
  | .ofVal (.vArr elems), k =>
      match arrLookup elems k with
      | some v => .ofVal v
      | none => if k = "__proto__" then .arrProto else .hostFn
  | .objProto, k => if k = "__proto__" then .ofVal .vNull else .hostFn
  | .arrProto, k =>
      if k = "length" then .ofVal (.vNum 0)
      else if k = "__proto__" then .objProto
      else .hostFn
  | v, _ => v

/-- `hasPath` from `src/utils/merge.ts`: walk the dot-path, returning false
as soon as the current value is `null` or not an object, or the segment
fails the `in`-operator check — an own key, or a property inherited from
the standard prototype objects; the next intermediate is the value the
property access yields. -/
def hasPathParts (σ : Store) : HostVal → List String → Bool
  | _, [] => true
  | current, part :: rest =>
      match current with
      | .ofVal (.vRef r) =>
          match lookupField (getObj σ r) part with
          | some v => hasPathParts σ (.ofVal v) rest
          | none =>
              if part = "__proto__" then hasPathParts σ .objProto rest
              else if OBJECT_PROTOTYPE_KEYS.contains part then
                hasPathParts σ .hostFn rest
              else false
      | .ofVal (.vArr elems) =>
          match arrLookup elems part with
          | some v => hasPathParts σ (.ofVal v) rest
          | none =>
              if part = "__proto__" then hasPathParts σ .arrProto rest
              else if ARRAY_PROTOTYPE_KEYS.contains part ||
                  OBJECT_PROTOTYPE_KEYS.contains part then
                hasPathParts σ .hostFn rest
              else false
      | .objProto =>
          if part = "__proto__" then hasPathParts σ (.ofVal .vNull) rest
          else if OBJECT_PROTOTYPE_KEYS.contains part then
            hasPathParts σ .hostFn rest
          else false
      | .arrProto =>
          if part = "length" then hasPathParts σ (.ofVal (.vNum 0)) rest
          else if part = "__proto__" then hasPathParts σ .objProto rest
          else if ARRAY_PROTOTYPE_KEYS.contains part ||
              OBJECT_PROTOTYPE_KEYS.contains part then
            hasPathParts σ .hostFn rest
          else false
      | _ => false

/-- `hasPath(obj, path)` on an arbitrary root value. -/
def hasPathVal (σ : Store) (root : Val) (path : String) : Bool :=
  hasPathParts σ (.ofVal root) (splitPath path)

/-- Specification predicate, in the amended claim's words: every segment of
the dot-path passes the `in`-operator check on the corresponding
intermediate, the next intermediate being the value the property access
yields. -/
inductive InKeyChain (σ : Store) : HostVal → List String → Prop
  | nil (v : HostVal) : InKeyChain σ v []
  | cons (v : HostVal) (k : String) (rest : List String)
      (hin : jsInB σ v k = true) (h : InKeyChain σ (jsReadH σ v k) rest) :
      InKeyChain σ v (k :: rest)

/-- The copy-on-write core of `setPath`: walk the parts, shallow-copying the
existing object at each level (or starting from `{}` when the intermediate is
not a plain object), and write the value at the final key.  Returns the new
field list for the current level; intermediate levels are allocated fresh. -/
def setPathParts (σ : Store) : JObj → List String → Val → Store × JObj
  | fields, [], _ => (σ, fields)
  | fields, [key], v => (σ, setField fields key v)
  | fields, key :: rest, v =>
      let inner : JObj :=
        match lookupField fields key with
        | some (.vRef r) => getObj σ r
        | _ => []
      let res := setPathParts σ inner rest v
      let a := alloc res.1 res.2
      (a.1, setField fields key (.vRef a.2))

/-- `setPath(obj, path, value)` from `src/utils/merge.ts`: returns a new
object with the value set, never mutating the input. -/
def setPath (σ : Store) (r : Nat) (path : String) (v : Val) : Store × Nat :=
  let res := setPathParts σ (getObj σ r) (splitPath path) v
  alloc res.1 res.2

/-- Maximum recursion depth of `mergeDeep` (`MAX_MERGE_DEPTH`). -/
def MAX_MERGE_DEPTH : Nat := 5

/-- Flat object spread `{...target, ...source}`. -/
def spreadMerge (target source : JObj) : JObj :=
  source.foldl (fun acc kv => setField acc kv.1 kv.2) target

/-- The key loop of `mergeDeep`, parameterised by the recursive call used for
keys where both values are plain objects. -/
def mergeFields (child : Store → Nat → Nat → Store × Nat) :
    Store → JObj → JObj → Store × JObj
  | σ, acc, [] => (σ, acc)
  | σ, acc, (key, sv) :: rest =>
      match lookupField acc key, sv with
      | some (.vRef tr), .vRef sr =>
          let res := child σ tr sr
          mergeFields child res.1 (setField acc key (.vRef res.2)) rest
      | _, _ => mergeFields child σ (setField acc key sv) rest

/-- `mergeDeep` with remaining recursion fuel `MAX_MERGE_DEPTH - depth`:
at exhausted fuel (`depth >= MAX_MERGE_DEPTH`) the levels are merged by flat
spread; otherwise keys where both values are plain objects are merged
recursively and all other source values win.  The result is allocated fresh;
neither input is written to. -/
def mergeDeepAux : Nat → Store → Nat → Nat → Store × Nat
  | 0, σ, t, s => alloc σ (spreadMerge (getObj σ t) (getObj σ s))
  | fuel + 1, σ, t, s =>
      let res := mergeFields (mergeDeepAux fuel) σ (getObj σ t) (getObj σ s)
      alloc res.1 res.2

/-- `mergeDeep(target, source)` from `src/utils/merge.ts`. -/
def mergeDeep (σ : Store) (t s : Nat) : Store × Nat :=
  mergeDeepAux MAX_MERGE_DEPTH σ t s

/-! ## Pure tree view of heap values

`PureVal` is the store-independent tree shape of a value.  `strip` reads a
value out of the heap down to `fuel` reference hops (`pTrunc` marks the cut;
for a store of `n` objects, fuel `n + 1` reaches every node of an acyclic
value).  `intern` writes a tree back into the heap as entirely fresh objects;
`structuredClone` is `intern` after `strip`.  Structural equality of two heap
values is equality of their `strip` images. -/

/-- A store-independent value tree. -/
inductive PureVal where
  | pNull
  | pUndef
  | pStr (s : String)
  | pNum (q : ℚ)
  | pBool (b : Bool)
  | pArr (elems : List PureVal)
  | pObj (fields : List (String × PureVal))
  | pTrunc
deriving Repr

/-- Induction on `PureVal` with membership hypotheses for array elements and
object field values. -/
def PureVal.recMem (motive : PureVal → Prop) (hNull : motive .pNull)
    (hUndef : motive .pUndef) (hStr : ∀ s, motive (.pStr s))
    (hNum : ∀ q, motive (.pNum q)) (hBool : ∀ b, motive (.pBool b))
    (hTrunc : motive .pTrunc)
    (hArr : ∀ l, (∀ v, v ∈ l → motive v) → motive (.pArr l))
    (hObj : ∀ l, (∀ kv, kv ∈ l → motive (Prod.snd kv)) → motive (.pObj l)) :
    ∀ v, motive v
  | .pNull => hNull
  | .pUndef => hUndef
  | .pStr s => hStr s
  | .pNum q => hNum q
  | .pBool b => hBool b
  | .pTrunc => hTrunc
  | .pArr l => hArr l (fun v hv =>
      PureVal.recMem motive hNull hUndef hStr hNum hBool hTrunc hArr hObj v)
  | .pObj l => hObj l (fun kv hkv =>
      PureVal.recMem motive hNull hUndef hStr hNum hBool hTrunc hArr hObj kv.2)
termination_by v => sizeOf v
decreasing_by
  · have h1 : sizeOf v < sizeOf l := List.sizeOf_lt_of_mem hv
    simp only [PureVal.pArr.sizeOf_spec]
    omega
  · have h1 : sizeOf kv < sizeOf l := List.sizeOf_lt_of_mem hkv
    have h2 : sizeOf kv.2 < sizeOf kv := by
      obtain ⟨a, b⟩ := kv
      simp only [Prod.mk.sizeOf_spec]
      omega
    simp only [PureVal.pObj.sizeOf_spec]
    omega

/-- Read a value out of the heap as a tree, following at most `fuel` levels
(`pTrunc` marks where the fuel ran out). -/
def strip (σ : Store) : Nat → Val → PureVal
  | 0, _ => .pTrunc
  | fuel + 1, v =>
      match v with
      | .vNull => .pNull
      | .vUndef => .pUndef
      | .vStr s => .pStr s
      | .vNum q => .pNum q
      | .vBool b => .pBool b
      | .vArr elems => .pArr (elems.map (fun e => strip σ fuel e))
      | .vRef r => .pObj ((getObj σ r).map (fun kv => (kv.1, strip σ fuel kv.2)))

/-- Cut a tree at depth `fuel`, the same way `strip` does. -/
def truncate : Nat → PureVal → PureVal
  | 0, _ => .pTrunc
  | fuel + 1, t =>
      match t with
      | .pArr elems => .pArr (elems.map (fun e => truncate fuel e))
      | .pObj fields => .pObj (fields.map (fun kv => (kv.1, truncate fuel kv.2)))
      | x => x

mutual

/-- Replace every truncation mark by `null` (the value `intern` produces
where a tree was cut). -/
def nullifyTrunc : PureVal → PureVal
  | .pNull => .pNull
  | .pUndef => .pUndef
  | .pStr s => .pStr s
  | .pNum q => .pNum q
  | .pBool b => .pBool b
  | .pTrunc => .pNull
  | .pArr elems => .pArr (nullifyTruncList elems)
  | .pObj fields => .pObj (nullifyTruncFields fields)

/-- `nullifyTrunc` on array elements. -/
def nullifyTruncList : List PureVal → List PureVal
  | [] => []
  | t :: ts => nullifyTrunc t :: nullifyTruncList ts

/-- `nullifyTrunc` on object fields. -/
def nullifyTruncFields : List (String × PureVal) → List (String × PureVal)
  | [] => []
  | (k, t) :: ts => (k, nullifyTrunc t) :: nullifyTruncFields ts

end

mutual

/-- Write a tree into the heap as entirely fresh objects. -/
def intern (σ : Store) : PureVal → Store × Val
  | .pNull => (σ, .vNull)
  | .pUndef => (σ, .vUndef)
  | .pStr s => (σ, .vStr s)
  | .pNum q => (σ, .vNum q)
  | .pBool b => (σ, .vBool b)
  | .pTrunc => (σ, .vNull)
  | .pArr elems =>
      let res := internList σ elems
      (res.1, .vArr res.2)
  | .pObj fields =>
      let res := internFields σ fields
      let a := alloc res.1 res.2
      (a.1, .vRef a.2)

/-- `intern` on array elements, threading the store. -/
def internList (σ : Store) : List PureVal → Store × List Val
  | [] => (σ, [])
  | t :: ts =>
      let a := intern σ t
      let b := internList a.1 ts
      (b.1, a.2 :: b.2)

/-- `intern` on object fields, threading the store. -/
def internFields (σ : Store) : List (String × PureVal) → Store × JObj
  | [] => (σ, [])
  | (k, t) :: ts =>
      let a := intern σ t
      let b := internFields a.1 ts
      (b.1, (k, a.2) :: b.2)

end

/-- `snapshot(obj)` from `src/utils/merge.ts`: `structuredClone`, a deep,
structurally independent copy.  (The `JSON` fallback of the source is dead
code for the values of this model, since `structuredClone` only throws on
functions and symbols.) -/
def snapshot (σ : Store) (v : Val) : Store × Val :=
  intern σ (strip σ (σ.length + 1) v)

/-! ## Store validity -/

mutual

/-- Every reference inside the value is below `n`. -/
def valRefsLtB (n : Nat) : Val → Bool
  | .vRef r => decide (r < n)
  | .vArr elems => valListRefsLtB n elems
  | _ => true

/-- `valRefsLtB` on a list of values. -/
def valListRefsLtB (n : Nat) : List Val → Bool
  | [] => true
  | v :: vs => valRefsLtB n v && valListRefsLtB n vs

end

mutual

/-- Every reference inside the value is at least `n` (freshness with respect
to a store of length `n`). -/
def valRefsGeB (n : Nat) : Val → Bool
  | .vRef r => decide (n ≤ r)
  | .vArr elems => valListRefsGeB n elems
  | _ => true

/-- `valRefsGeB` on a list of values. -/
def valListRefsGeB (n : Nat) : List Val → Bool
  | [] => true
  | v :: vs => valRefsGeB n v && valListRefsGeB n vs

end

/-- Every reference inside the object's field values is below `n`. -/
def objRefsLtB (n : Nat) (o : JObj) : Bool := o.all (fun kv => valRefsLtB n kv.2)

/-- A closed store: every object only references objects of the store. -/
def validStoreB (σ : Store) : Bool := σ.all (objRefsLtB σ.length)

/-- `stripFields`: the field-level view of `strip` one reference hop in. -/
def stripFields (σ : Store) (fuel : Nat) (fields : JObj) : List (String × PureVal) :=
  fields.map (fun kv => (kv.1, strip σ fuel kv.2))

/-- `snapshot` of an object root: clone the fields, then allocate the clone.
Equal to `snapshot σ (.vRef r)` but returning the fresh reference. -/
def snapshotObj (σ : Store) (r : Nat) : Store × Nat :=
  let res := internFields σ (stripFields σ σ.length (getObj σ r))
  alloc res.1 res.2

/-! ## String conversion (`String(value)`) -/

/-- `String(q)` for a number.  JavaScript float formatting is abstracted:
integral values print exactly as in JavaScript, other rationals use the
`Rat` printer (never inspected by the verified claims). -/
def jsNumToString (q : ℚ) : String :=
  if q.den = 1 then toString q.num else toString q

mutual

/-- JavaScript `String(value)`. -/
def jsToString : Val → String
  | .vNull => "null"
  | .vUndef => "undefined"
  | .vStr s => s
  | .vNum q => jsNumToString q
  | .vBool b => if b then "true" else "false"
  | .vRef _ => "[object Object]"
  | .vArr elems => jsArrToString elems

/-- Array-to-string: elements joined by commas. -/
def jsArrToString : List Val → String
  | [] => ""
  | [v] => jsElemToString v
  | v :: rest => jsElemToString v ++ "," ++ jsArrToString rest

/-- Element conversion inside an array join: `null` and `undefined`
become the empty string. -/
def jsElemToString : Val → String
  | .vNull => ""
  | .vUndef => ""
  | .vStr s => s
  | .vNum q => jsNumToString q
  | .vBool b => if b then "true" else "false"
  | .vRef _ => "[object Object]"
  | .vArr elems => jsArrToString elems

end

/-! ## Redaction engine (`src/middleware/express.ts`, redaction half) -/

/-- A redaction strategy. -/
inductive RedactionStrategy where
  | mask
  | hash
  | drop
deriving Repr, DecidableEq

/-- Redaction configuration (`RedactionConfig` from `src/types.ts`). -/
structure RedactionConfig where
  enabled : Bool
  strategy : Option RedactionStrategy := none
  fields : List String := []

/-- `DEFAULT_SENSITIVE_FIELDS`. -/
def DEFAULT_SENSITIVE_FIELDS : List String :=
  ["user.email", "user.phone", "headers.authorization", "headers.cookie",
   "headers.x-api-key"]

/-- `'*'.repeat n`. -/
def starRepeat (n : Nat) : String := String.mk (List.replicate n '*')

/-- Mask one domain label: keep the first character, mask the rest
(`part.length > 1 ? part[0] + '*'.repeat(part.length - 1) : '*'`). -/
def maskLabel (part : String) : String :=
  if part.length > 1 then part.take 1 ++ starRepeat (part.length - 1) else "*"

/-- Mask every domain label except the last. -/
def maskDomainParts : List String → List String
  | [] => []
  | [p] => [p]
  | p :: rest => maskLabel p :: maskDomainParts rest

/-- `maskValue` from the redaction engine. -/
def maskValue (value : String) : String :=
  if value.length ≤ 2 then starRepeat value.length
  else if strContainsChar value '@' then
    let parts := splitOnChar '@' value
    let localPart := parts.headD ""
    let domain := (parts.drop 1).headD ""
    let maskedLocal :=
      if localPart.length > 1 then
        localPart.take 1 ++ starRepeat (max 1 (localPart.length - 1))
      else "*"
    let domainParts := splitOnChar '.' domain
    let maskedDomain := String.intercalate "." (maskDomainParts domainParts)
    maskedLocal ++ "@" ++ maskedDomain
  else
    let first := value.take 1
    let lastChar := value.takeRight 1
    let middleLength := max 1 (value.length - 2)
    first ++ starRepeat middleLength ++ lastChar

/-- `redactValue`: `null`/`undefined` pass through; every other value is
first converted with `String(value)` and then masked, hashed, or dropped.
The SHA-256 hex digest (`node:crypto`) is injected as `hashFn`.  (The
`default` arm of the source `switch` is unreachable over the closed
strategy type.) -/
def redactValue (hashFn : String → String) (value : Val)
    (strategy : RedactionStrategy) : Val :=
  if value = .vNull ∨ value = .vUndef then value
  else
    let stringValue := jsToString value
    match strategy with
    | .mask => .vStr (maskValue stringValue)
    | .hash => .vStr (hashFn stringValue)
    | .drop => .vStr "[REDACTED]"

/-! ## Schema validation (`schema.ts`) -/

/-- Declared field types. -/
inductive FieldType where
  | string
  | number
  | boolean
  | object
  | array
deriving Repr, DecidableEq

/-- A schema field definition. -/
structure FieldDefinition where
  type : FieldType
  pii : Option Bool := none
  redaction : Option RedactionStrategy := none

/-- Unknown top-level key policy. -/
inductive UnknownFieldMode where
  | allow
  | warn
  | deny
deriving Repr, DecidableEq

/-- A Canon schema. -/
structure CanonSchema where
  required : List String
  fields : List (String × FieldDefinition)
  unknownMode : Option UnknownFieldMode := none

/-- `BUILT_IN_REQUIRED`: the eight always-required fields. -/
def BUILT_IN_REQUIRED : List String :=
  ["timestamp", "request_id", "service", "method", "path", "status_code",
   "duration_ms", "outcome"]

/-- A validation result. -/
structure ValidationResult where
  valid : Bool
  errors : List String
  warnings : List String
deriving Repr, DecidableEq

/-- `typeof value`, as printed in validation messages. -/
def jsTypeof : Val → String
  | .vNull => "object"
  | .vUndef => "undefined"
  | .vStr _ => "string"
  | .vNum _ => "number"
  | .vBool _ => "boolean"
  | .vArr _ => "object"
  | .vRef _ => "object"

/-- The name of a field type, as printed in validation messages. -/
def FieldType.name : FieldType → String
  | .string => "string"
  | .number => "number"
  | .boolean => "boolean"
  | .object => "object"
  | .array => "array"

/-- `matchesType`: `null`/`undefined` match every type; otherwise the runtime
shape must agree (`number` excludes `NaN`, which has no rational model;
`object` means a non-array object). -/
def matchesType (value : Val) (expectedType : FieldType) : Bool :=
  if value = .vNull ∨ value = .vUndef then true
  else
    match expectedType with
    | .string => match value with | .vStr _ => true | _ => false
    | .number => match value with | .vNum _ => true | _ => false
    | .boolean => match value with | .vBool _ => true | _ => false
    | .object => match value with | .vRef _ => true | _ => false
    | .array => match value with | .vArr _ => true | _ => false

/-- The top-level fields of an event value (empty for non-objects). -/
def topFields (σ : Store) : Val → JObj
  | .vRef r => getObj σ r
  | _ => []

/-- `path.split('.')[0]`. -/
def firstSegment (path : String) : String := (splitPath path).headD ""

/-- `getKnownTopLevelKeys`: first segments of required and declared paths,
plus the built-in required fields (the source collects them in a `Set`;
only membership is ever used). -/
def getKnownTopLevelKeys (schema : CanonSchema) : List String :=
  schema.required.map firstSegment ++
    schema.fields.map (fun kv => firstSegment kv.1) ++ BUILT_IN_REQUIRED

/-- `validateSchema(event, schema, strict)`. -/
def validateSchema (σ : Store) (event : Val) (schema : Option CanonSchema)
    (strict : Bool) : ValidationResult :=
  let builtinErrors :=
    (BUILT_IN_REQUIRED.filter (fun f => !(hasPathVal σ event f))).map
      (fun f => s!"Missing required built-in field: {f}")
  match schema with
  | none =>
      { valid := builtinErrors.isEmpty, errors := builtinErrors, warnings := [] }
  | some sch =>
      let requiredErrors :=
        (sch.required.filter (fun p => !(hasPathVal σ event p))).map
          (fun p => s!"Missing required field: {p}")
      let typeMismatches :=
        (sch.fields.filter (fun kv =>
            hasPathVal σ event kv.1 &&
              !(matchesType (getPathVal σ event kv.1) kv.2.type))).map
          (fun kv =>
            let path := kv.1
            let expected := kv.2.type.name
            let got := jsTypeof (getPathVal σ event kv.1)
            s!"Field \"{path}\" has invalid type: expected {expected}, got {got}")
      let unknownMode := sch.unknownMode.getD .allow
      let unknownMsgs :=
        if unknownMode = .allow then []
        else
          let knownKeys := getKnownTopLevelKeys sch
          ((topFields σ event).map Prod.fst).filterMap (fun key =>
            if knownKeys.contains key then none
            else some s!"Unknown top-level field: {key}")
      let errors :=
        builtinErrors ++ requiredErrors ++
          (if strict then typeMismatches else []) ++
          (if unknownMode = .deny ∧ strict then unknownMsgs else [])
      let warnings :=
        (if strict then [] else typeMismatches) ++
          (if unknownMode ≠ .allow ∧ ¬(unknownMode = .deny ∧ strict)
           then unknownMsgs else [])
      { valid := errors.isEmpty, errors := errors, warnings := warnings }

/-- `applyRedaction`'s per-path loop: look the value up, skip absent values,
resolve the field strategy (schema override before global), write back. -/
def redactLoop (hashFn : String → String) (schema : Option CanonSchema)
    (globalStrategy : RedactionStrategy) :
    Store → Nat → List String → Store × Nat
  | σ, result, [] => (σ, result)
  | σ, result, path :: rest =>
      let value := getPathVal σ (.vRef result) path
      if value ≠ .vUndef then
        let fieldStrategy :=
          (match schema with
           | some sch =>
               match lookupField sch.fields path with
               | some fd => fd.redaction
               | none => none
           | none => none).getD globalStrategy
        let redactedValue := redactValue hashFn value fieldStrategy
        let res := setPath σ result path redactedValue
        redactLoop hashFn schema globalStrategy res.1 res.2 rest
      else
        redactLoop hashFn schema globalStrategy σ result rest

/-- `applyRedaction(event, config, schema)`: clone the event, return the
clone unchanged when redaction is absent or disabled, otherwise redact the
configured paths (or the default sensitive fields when the list is empty)
inside the clone. -/
def applyRedaction (hashFn : String → String) (σ : Store) (event : Nat)
    (config : Option RedactionConfig) (schema : Option CanonSchema) :
    Store × Nat :=
  let redacted := snapshotObj σ event
  match config with
  | none => redacted
  | some cfg =>
      if cfg.enabled = false then redacted
      else
        let globalStrategy := cfg.strategy.getD .mask
        let fieldsToRedact :=
          if cfg.fields.length > 0 then cfg.fields else DEFAULT_SENSITIVE_FIELDS
        redactLoop hashFn schema globalStrategy redacted.1 redacted.2 fieldsToRedact

/-! ## Tail sampling (`sampling.ts` part of `src/core/event.ts`) -/

/-- Defaults from `src/types.ts` (`DEFAULTS`). -/
structure DefaultConfig where
  requestIdHeader : String
  traceIdHeader : String
  trustIncomingIds : Bool
  strict : Bool
  sampleRateSuccess : ℚ
  slowThresholdMs : ℚ
  redactionStrategy : RedactionStrategy
  unknownFieldMode : UnknownFieldMode

/-- `DEFAULTS`. -/
def DEFAULTS : DefaultConfig :=
  { requestIdHeader := "x-request-id"
    traceIdHeader := "x-trace-id"
    trustIncomingIds := true
    strict := false
    sampleRateSuccess := 5 / 100
    slowThresholdMs := 2000
    redactionStrategy := .mask
    unknownFieldMode := .allow }

/-- Sampling configuration.  The custom decision function receives the
(heap-allocated) event. -/
structure SamplingConfig where
  sampleRateSuccess : Option ℚ := none
  slowThresholdMs : Option ℚ := none
  custom : Option (Store → Val → Bool) := none

/-- `ALWAYS_SAMPLE_STATUS_CODES` (408, 429). -/
def ALWAYS_SAMPLE_STATUS_CODES : List ℚ := [408, 429]

/-- `event.status_code ?? 0` followed by numeric use.  Non-numeric field
values are outside the model (JavaScript `ToNumber` coercion of exotic
values is not modelled); the claims only exercise numeric or absent
fields. -/
def numOrZero : Option Val → ℚ
  | some (.vNum q) => q
  | _ => 0

/-- `shouldSampleDefault(event, config)`, with the `Math.random()` draw
passed explicitly as `rnd`. -/
def shouldSampleDefault (σ : Store) (event : Val) (config : SamplingConfig)
    (rnd : ℚ) : Bool :=
  let statusCode := numOrZero (propLookup σ event "status_code")
  let duration := numOrZero (propLookup σ event "duration_ms")
  let outcome := propLookup σ event "outcome"
  if statusCode ≥ 500 then true
  else if ALWAYS_SAMPLE_STATUS_CODES.contains statusCode then true
  else if outcome = some (.vStr "aborted") then true
  else if outcome = some (.vStr "error") then true
  else
    let slowThreshold := config.slowThresholdMs.getD DEFAULTS.slowThresholdMs
    if duration > slowThreshold then true
    else
      let sampleRate := config.sampleRateSuccess.getD DEFAULTS.sampleRateSuccess
      decide (rnd < sampleRate)

/-- The sampling argument: a rules object or a bare decision function. -/
inductive SampleSetting where
  | rules (config : SamplingConfig)
  | fn (f : Store → Val → Bool)

/-- `shouldSample(event, config)`. -/
def shouldSample (σ : Store) (event : Val) (config : Option SampleSetting)
    (rnd : ℚ) : Bool :=
  match config with
  | none => shouldSampleDefault σ event {} rnd
  | some (.fn f) => f σ event
  | some (.rules cfg) =>
      match cfg.custom with
      | some f => f σ event
      | none => shouldSampleDefault σ event cfg rnd

/-! ## Time (`src/utils/time.ts`) -/

/-- `durationMs(startMs)` with the current high-resolution time passed
explicitly: `Math.round((now - startMs) * 100) / 100`. -/
def durationMs (startMs now : ℚ) : ℚ := ((round ((now - startMs) * 100) : ℤ) : ℚ) / 100

/-! ## Event builder (`src/core/event.ts`) -/

/-- Request outcomes. -/
inductive RequestOutcome where
  | success
  | error
  | aborted
deriving Repr, DecidableEq

/-- The string form of an outcome. -/
def RequestOutcome.toVal : RequestOutcome → Val
  | .success => .vStr "success"
  | .error => .vStr "error"
  | .aborted => .vStr "aborted"

/-- The builder state (`EventBuilderState`): the live record (a heap
reference), the monotonic start marker, and the two one-way flags. -/
structure BuilderRec where
  event : Nat
  startTime : ℚ
  finalized : Bool
  emitted : Bool
deriving Repr, DecidableEq

/-- `createEventBuilder(initialData, startTime)` — the constructor copies
the initial data (`{ ...initialData }`). -/
def createEventBuilder (σ : Store) (initialData : JObj) (startTime : ℚ) :
    Store × BuilderRec :=
  let a := alloc σ initialData
  (a.1, { event := a.2, startTime := startTime, finalized := false, emitted := false })

/-- In-place field assignment on an existing heap object. -/
def updateObj (σ : Store) (r : Nat) (f : JObj → JObj) : Store :=
  σ.set r (f (getObj σ r))

/-- JavaScript falsiness of a property value (`undefined`, `null`, `false`,
`0`, `""`, or an absent key; `NaN` has no rational model). -/
def isFalsyProp : Option Val → Bool
  | none => true
  | some .vUndef => true
  | some .vNull => true
  | some (.vBool false) => true
  | some (.vNum q) => decide (q = 0)
  | some (.vStr s) => decide (s = "")
  | _ => false

/-- `normalizeError(err)`.  `Error` class instances are not representable in
this value model (no class prototypes), so the `instanceof Error` branch is
not modelled; objects take the second branch (with a present-but-`undefined`
`code`/`retriable` on type mismatch, as in the source) and primitives the
third. -/
def normalizeError (σ : Store) (err : Val) : JObj :=
  match err with
  | .vRef _ | .vArr _ =>
      [("type",
        match propLookup σ err "type" with | some (.vStr t) => .vStr t | _ => .vStr "Error"),
       ("message",
        match propLookup σ err "message" with
        | some (.vStr m) => .vStr m
        | _ => .vStr (jsToString err)),
       ("code",
        match propLookup σ err "code" with | some (.vStr c) => .vStr c | _ => .vUndef),
       ("retriable",
        match propLookup σ err "retriable" with
        | some (.vBool b) => .vBool b
        | _ => .vUndef)]
  | _ => [("type", .vStr "Error"), ("message", .vStr (jsToString err))]

/-- `enrich(obj)`: no-op (with a logged warning) once finalized, otherwise
`mergeDeep` the argument into the live record. -/
def EventBuilder.enrich (σ : Store) (b : BuilderRec) (objRef : Nat) :
    Store × BuilderRec :=
  if b.finalized then (σ, b)
  else
    let res := mergeDeep σ b.event objRef
    (res.1, { b with event := res.2 })

/-- `set(path, value)`: no-op once finalized, otherwise `setPath`. -/
def EventBuilder.set (σ : Store) (b : BuilderRec) (path : String) (value : Val) :
    Store × BuilderRec :=
  if b.finalized then (σ, b)
  else
    let res := setPath σ b.event path value
    (res.1, { b with event := res.2 })

/-- `get()`: a snapshot of the current state. -/
def EventBuilder.get (σ : Store) (b : BuilderRec) : Store × Nat :=
  snapshotObj σ b.event

/-- `markError(err)`: no-op once finalized; otherwise store the normalized
error and set `outcome` to `'error'` unless it is already `'aborted'`. -/
def EventBuilder.markError (σ : Store) (b : BuilderRec) (err : Val) :
    Store × BuilderRec :=
  if b.finalized then (σ, b)
  else
    let canonError := normalizeError σ err
    let a := alloc σ canonError
    let σ1 := updateObj a.1 b.event (fun fields => setField fields "error" (.vRef a.2))
    let σ2 :=
      if lookupField (getObj σ1 b.event) "outcome" ≠ some (.vStr "aborted") then
        updateObj σ1 b.event (fun fields => setField fields "outcome" (.vStr "error"))
      else σ1
    (σ2, b)

/-- `finalize(outcome, statusCode)`, with the current time passed
explicitly: idempotent (already-finalized builders just return a fresh
snapshot); otherwise locks the flag, sets `duration_ms` and `status_code`,
resolves `outcome` only when it is still falsy, and returns a snapshot. -/
def EventBuilder.finalize (σ : Store) (b : BuilderRec) (outcome : RequestOutcome)
    (statusCode : ℚ) (now : ℚ) : Store × BuilderRec × Nat :=
  if b.finalized then
    let s := snapshotObj σ b.event
    (s.1, b, s.2)
  else
    let b1 := { b with finalized := true }
    let σ1 := updateObj σ b.event (fun fields =>
        setField fields "duration_ms" (.vNum (durationMs b.startTime now)))
    let σ2 := updateObj σ1 b.event (fun fields =>
        setField fields "status_code" (.vNum statusCode))
    let σ3 :=
      if isFalsyProp (lookupField (getObj σ2 b.event) "outcome") then
        if outcome = .aborted then
          updateObj σ2 b.event (fun fields => setField fields "outcome" (.vStr "aborted"))
        else if !(isFalsyProp (lookupField (getObj σ2 b.event) "error")) ∨ statusCode ≥ 500 then
          updateObj σ2 b.event (fun fields => setField fields "outcome" (.vStr "error"))
        else
          updateObj σ2 b.event (fun fields => setField fields "outcome" outcome.toVal)
      else σ2
    let s := snapshotObj σ3 b.event
    (s.1, b1, s.2)

/-- `markEmitted()`. -/
def EventBuilder.markEmitted (b : BuilderRec) : BuilderRec := { b with emitted := true }

/-! ## Lifecycle orchestrator (`canon.ts`, `createCanonContext`) -/

/-- The configuration surface consumed by the orchestrator. -/
structure CanonConfig where
  redact : Option RedactionConfig := none
  schema : Option CanonSchema := none
  strict : Option Bool := none
  sample : Option SampleSetting := none

/-- `normalizeSamplingConfig`. -/
def normalizeSamplingConfig (config : Option SampleSetting) : Option SampleSetting :=
  match config with
  | none => none
  | some c => some c

/-- The orchestrator state for one request: the heap, the builder, the
closure-local `emitted` flag, and the records handed to the injected sink so
far (in order). -/
structure OrchState where
  store : Store
  builder : BuilderRec
  emitted : Bool
  sinkEvents : List Nat

/-- One completion/abort signal together with its environment inputs (the
clock reading used by `finalize` and the `Math.random()` draw used by
sampling). -/
structure Signal where
  outcome : RequestOutcome
  statusCode : ℚ
  now : ℚ
  rnd : ℚ

/-- `createCanonContext`'s initial state: a fresh builder over the base
event, nothing emitted. -/
def initCanonContext (σ : Store) (baseEvent : JObj) (startTime : ℚ) : OrchState :=
  let cb := createEventBuilder σ baseEvent startTime
  { store := cb.1, builder := cb.2, emitted := false, sinkEvents := [] }

/-- `emitEvent(outcome, statusCode)`: the guarded finalize-once transition.
A second signal returns immediately; the winning signal finalizes, redacts,
validates (aborting emission in strict mode on invalid records), samples
(unless in debug), hands the record to the sink, and marks the builder
emitted. -/
def emitEvent (hashFn : String → String) (config : CanonConfig) (debug : Bool)
    (st : OrchState) (sig : Signal) : OrchState :=
  if st.emitted then st
  else
    let f := EventBuilder.finalize st.store st.builder sig.outcome sig.statusCode sig.now
    let red := applyRedaction hashFn f.1 f.2.2 config.redact config.schema
    let validation := validateSchema red.1 (.vRef red.2) config.schema (config.strict.getD false)
    let st1 : OrchState :=
      { store := red.1, builder := f.2.1, emitted := true, sinkEvents := st.sinkEvents }
    if !validation.valid ∧ config.strict = some true then st1
    else if !debug ∧
        !(shouldSample red.1 (.vRef red.2) (normalizeSamplingConfig config.sample) sig.rnd) then st1
    else
      { st1 with
        sinkEvents := st1.sinkEvents ++ [red.2]
        builder := EventBuilder.markEmitted f.2.1 }

/-- Deliver a sequence of completion/abort signals to one lifecycle
instance. -/
def runSignals (hashFn : String → String) (config : CanonConfig) (debug : Bool)
    (st : OrchState) (sigs : List Signal) : OrchState :=
  sigs.foldl (emitEvent hashFn config debug) st

/-- Store extension: `σ'` is `σ` with objects appended. -/
def storeLe (σ σ' : Store) : Prop := ∃ ext : Store, σ' = σ ++ ext

/-- Every field value of the object has references at least `n`. -/
def objRefsGeB (n : Nat) (o : JObj) : Bool := o.all (fun kv => valRefsGeB n kv.2)

/-- The objects a copying operation appended on top of `σ` reference only
appended objects (nothing shared with the original region). -/
def newRegionClosed (σ σ' : Store) : Prop :=
  ∀ j, σ.length ≤ j → j < σ'.length →
    ∀ kv ∈ getObj σ' j,
      valRefsGeB σ.length kv.2 = true ∧ valRefsLtB σ'.length kv.2 = true

/-! ### The merge specification on pure trees -/

/-- Flat spread on pure object fields (the spec's "flat overwrite"). -/
def pSpread (target source : List (String × PureVal)) : List (String × PureVal) :=
  source.foldl (fun acc kv => setField acc kv.1 kv.2) target

/-- The key loop of the specification merge, parameterised by the recursive
merge used when both values are plain objects. -/
def pMergeGo (rec : PureVal → PureVal → PureVal) :
    List (String × PureVal) → List (String × PureVal) → List (String × PureVal)
  | acc, [] => acc
  | acc, (k, sv) :: rest =>
      match lookupField acc k, sv with
      | some (.pObj tf), .pObj sf =>
          pMergeGo rec (setField acc k (rec (.pObj tf) (.pObj sf))) rest
      | _, _ => pMergeGo rec (setField acc k sv) rest

/-- The merge specification on (store-independent) trees, in the claim's
words: for keys present in both sides where both values are plain maps the
values are merged recursively and otherwise the source value wins (arrays
and primitives replaced wholesale); past the depth bound the remaining
levels are merged by flat overwrite. -/
def pMergeVal : Nat → PureVal → PureVal → PureVal
  | 0, .pObj tf, .pObj sf => .pObj (pSpread tf sf)
  | 0, _, s => s
  | fuel + 1, .pObj tf, .pObj sf => .pObj (pMergeGo (pMergeVal fuel) tf sf)
  | _ + 1, _, s => s

/-! ### Builder operation sequences (for the outcome-policy claim) -/

/-- A builder operation available before finalize (payloads are written into
the heap fresh when the operation is applied). -/
inductive BOp where
  | enrich (fields : List (String × PureVal))
  | set (path : String) (v : PureVal)
  | markError (err : PureVal)

/-- Apply one builder operation. -/
def applyBOp (st : Store × BuilderRec) : BOp → Store × BuilderRec
  | .enrich fs =>
      let i := internFields st.1 fs
      let a := alloc i.1 i.2
      EventBuilder.enrich a.1 st.2 a.2
  | .set p v =>
      let i := intern st.1 v
      EventBuilder.set i.1 st.2 p i.2
  | .markError e =>
      let i := intern st.1 e
      EventBuilder.markError i.1 st.2 i.2

/-- Run a sequence of builder operations. -/
def runBOps (st : Store × BuilderRec) (ops : List BOp) : Store × BuilderRec :=
  ops.foldl applyBOp st

/-- Does the operation write the given top-level key directly (an `enrich`
whose payload has the key at top level, or a `set` whose path starts with
the key)? -/
def BOp.writesKey (k : String) : BOp → Bool
  | .enrich fs => (fs.map Prod.fst).contains k
  | .set p _ => decide (firstSegment p = k)
  | .markError _ => false

/-- Is the operation a `markError`? -/
def BOp.isMarkError : BOp → Bool
  | .markError _ => true
  | _ => false

/-- The outcome-resolution policy in the claim's words: if an error was
marked the outcome is `error`; else a forced `aborted` wins; else a status
code of 500 or more forces `error`; else the caller's outcome is used. -/
def outcomePolicySpec (errorMarked : Bool) (hint : RequestOutcome)
    (statusCode : ℚ) : RequestOutcome :=
  if errorMarked then .error
  else if hint = .aborted then .aborted
  else if statusCode ≥ 500 then .error
  else hint

/-- The `outcome` field of the builder's record after running the given
operations from a fresh builder and finalizing once. -/
def finalizedOutcome (σ0 : Store) (init : JObj) (start : ℚ) (ops : List BOp)
    (hint : RequestOutcome) (statusCode now : ℚ) : Option Val :=
  let st := runBOps (createEventBuilder σ0 init start) ops
  let fin := EventBuilder.finalize st.1 st.2 hint statusCode now
  lookupField (getObj fin.1 fin.2.1.event) "outcome"

/-- Claim C2 exactly as stated: the policy fixes the finalized outcome for
every prior sequence of enrich/set/markError calls. -/
def outcomeClaimAllSequences : Prop :=
  ∀ (σ0 : Store) (init : JObj) (start : ℚ) (ops : List BOp)
    (hint : RequestOutcome) (statusCode now : ℚ),
    finalizedOutcome σ0 init start ops hint statusCode now =
      some (outcomePolicySpec (ops.any BOp.isMarkError) hint statusCode).toVal

/-- Invariant of the amended claim: as long as no operation writes the
`outcome` or `error` fields directly, those fields are absent until the
first `markError`, after which `outcome` is `'error'` and `error` holds a
reference to a normalized error object. -/
def outcomeInv (st : Store × BuilderRec) (marked : Bool) : Prop :=
  st.2.finalized = false ∧
    st.2.event < st.1.length ∧
    (if marked then
        lookupField (getObj st.1 st.2.event) "outcome" = some (.vStr "error") ∧
          ∃ r, lookupField (getObj st.1 st.2.event) "error" = some (.vRef r)
      else
        lookupField (getObj st.1 st.2.event) "outcome" = none ∧
          lookupField (getObj st.1 st.2.event) "error" = none)

/-- Specification predicate, from the claim's words: every segment of the
path exists as an own key of the corresponding intermediate object, the
next intermediate being that key's value (a key present with value
`undefined` or `null` is an own key like any other). -/
inductive OwnKeyChain (σ : Store) : Val → List String → Prop
  | nil (v : Val) : OwnKeyChain σ v []
  | cons (v : Val) (k : String) (rest : List String) (w : Val)
      (hk : propLookup σ v k = some w) (hrest : OwnKeyChain σ w rest) :
      OwnKeyChain σ v (k :: rest)

/-! # Infrastructure lemmas -/

theorem lookupField_setField_self {α : Type} (l : List (String × α)) (k : String) (v : α) :
    lookupField (setField l k v) k = some v := by
  induction l with
  | nil => simp [setField, lookupField]
  | cons kv rest ih =>
      obtain ⟨k', w⟩ := kv
      by_cases h : k' = k <;> simp [setField, lookupField, h, ih]

theorem lookupField_setField_ne {α : Type} (l : List (String × α)) (k k' : String) (v : α)
    (h : k' ≠ k) : lookupField (setField l k' v) k = lookupField l k := by
  induction l with
  | nil =>
      simp only [setField, lookupField]
      rw [if_neg h]
  | cons kv rest ih =>
      obtain ⟨k'', w⟩ := kv
      simp only [setField]
      by_cases h2 : k'' = k'
      · subst h2
        simp only [if_pos rfl, lookupField]
        rw [if_neg h, if_neg h]
      · rw [if_neg h2]
        simp only [lookupField]
        by_cases h3 : k'' = k
        · rw [if_pos h3, if_pos h3]
        · rw [if_neg h3, if_neg h3]; exact ih

theorem lookupField_eq_none_iff {α : Type} (l : List (String × α)) (k : String) :
    lookupField l k = none ↔ k ∉ l.map Prod.fst := by
  induction l with
  | nil => simp [lookupField]
  | cons kv rest ih =>
      obtain ⟨k', w⟩ := kv
      by_cases h : k' = k
      · subst h
        simp [lookupField]
      · have h' : k ≠ k' := fun hh => h hh.symm
        simp [lookupField, h, h', ih]


theorem storeLe_refl (σ : Store) : storeLe σ σ := ⟨[], by simp⟩

theorem storeLe_trans {σ1 σ2 σ3 : Store} (h1 : storeLe σ1 σ2) (h2 : storeLe σ2 σ3) :
    storeLe σ1 σ3 := by
  obtain ⟨e1, rfl⟩ := h1
  obtain ⟨e2, rfl⟩ := h2
  exact ⟨e1 ++ e2, by simp⟩

theorem storeLe_length {σ σ' : Store} (h : storeLe σ σ') : σ.length ≤ σ'.length := by
  obtain ⟨e, rfl⟩ := h
  simp

theorem storeLe_alloc (σ : Store) (o : JObj) : storeLe σ (alloc σ o).1 := ⟨[o], rfl⟩

theorem getObj_append {σ : Store} (ext : Store) {r : Nat} (h : r < σ.length) :
    getObj (σ ++ ext) r = getObj σ r := by
  simp [getObj, List.getD_eq_getElem?_getD, List.getElem?_append, h]

theorem getObj_storeLe {σ σ' : Store} {r : Nat} (h : storeLe σ σ') (hr : r < σ.length) :
    getObj σ' r = getObj σ r := by
  obtain ⟨e, rfl⟩ := h
  exact getObj_append e hr

theorem getObj_alloc_new (σ : Store) (o : JObj) : getObj (alloc σ o).1 (alloc σ o).2 = o := by
  simp [alloc, getObj, List.getD_eq_getElem?_getD, List.getElem?_append_right (Nat.le_refl _)]

theorem alloc_ref_lt (σ : Store) (o : JObj) : (alloc σ o).2 < (alloc σ o).1.length := by
  simp [alloc]

theorem getObj_set_self {σ : Store} {r : Nat} (o : JObj) (h : r < σ.length) :
    getObj (σ.set r o) r = o := by
  simp [getObj, List.getD_eq_getElem?_getD, List.getElem?_set_self, h]

theorem getObj_set_ne {σ : Store} {r r' : Nat} (o : JObj) (h : r' ≠ r) :
    getObj (σ.set r' o) r = getObj σ r := by
  simp [getObj, List.getD_eq_getElem?_getD, List.getElem?_set_ne h]

theorem getObj_updateObj_self {σ : Store} {r : Nat} (f : JObj → JObj) (h : r < σ.length) :
    getObj (updateObj σ r f) r = f (getObj σ r) :=
  getObj_set_self _ h

theorem length_updateObj (σ : Store) (r : Nat) (f : JObj → JObj) :
    (updateObj σ r f).length = σ.length := by
  simp [updateObj]

/-! ### Frame lemmas: every copying operation only appends to the store -/

theorem intern_storeLe : ∀ t σ, storeLe σ (intern σ t).1 := by
  intro t
  induction t using PureVal.recMem with
  | hNull => intro σ; exact storeLe_refl σ
  | hUndef => intro σ; exact storeLe_refl σ
  | hStr s => intro σ; exact storeLe_refl σ
  | hNum q => intro σ; exact storeLe_refl σ
  | hBool b => intro σ; exact storeLe_refl σ
  | hTrunc => intro σ; exact storeLe_refl σ
  | hArr l ih =>
      intro σ
      simp only [intern]
      suffices hs : ∀ l, (∀ v ∈ l, ∀ σ, storeLe σ (intern σ v).1) →
          ∀ σ, storeLe σ (internList σ l).1 by
        exact hs l ih σ
      intro l
      induction l with
      | nil => intro _ σ; exact storeLe_refl σ
      | cons t ts ihl =>
          intro hmem σ
          simp only [internList]
          exact storeLe_trans (hmem t (by simp) σ)
            (ihl (fun v hv => hmem v (by simp [hv])) _)
  | hObj l ih =>
      intro σ
      simp only [intern]
      suffices hs : ∀ l, (∀ kv ∈ l, ∀ σ, storeLe σ (intern σ (Prod.snd kv)).1) →
          ∀ σ, storeLe σ (internFields σ l).1 by
        exact storeLe_trans (hs l ih σ) (storeLe_alloc _ _)
      intro l
      induction l with
      | nil => intro _ σ; exact storeLe_refl σ
      | cons kv ts ihl =>
          intro hmem σ
          obtain ⟨k, t⟩ := kv
          simp only [internFields]
          exact storeLe_trans (hmem (k, t) (by simp) σ)
            (ihl (fun v hv => hmem v (by simp [hv])) _)

theorem internList_storeLe (l : List PureVal) : ∀ σ, storeLe σ (internList σ l).1 := by
  induction l with
  | nil => intro σ; exact storeLe_refl σ
  | cons t ts ih =>
      intro σ
      simp only [internList]
      exact storeLe_trans (intern_storeLe t σ) (ih _)

theorem internFields_storeLe (l : List (String × PureVal)) :
    ∀ σ, storeLe σ (internFields σ l).1 := by
  induction l with
  | nil => intro σ; exact storeLe_refl σ
  | cons kv ts ih =>
      intro σ
      obtain ⟨k, t⟩ := kv
      simp only [internFields]
      exact storeLe_trans (intern_storeLe t σ) (ih _)

theorem snapshotObj_storeLe (σ : Store) (r : Nat) : storeLe σ (snapshotObj σ r).1 := by
  simp only [snapshotObj]
  exact storeLe_trans (internFields_storeLe _ σ) (storeLe_alloc _ _)

theorem snapshotObj_ref_lt (σ : Store) (r : Nat) :
    (snapshotObj σ r).2 < (snapshotObj σ r).1.length := by
  simp [snapshotObj, alloc]

theorem setPathParts_storeLe :
    ∀ (parts : List String) (σ : Store) (fs : JObj) (v : Val),
      storeLe σ (setPathParts σ fs parts v).1 := by
  intro parts
  induction parts with
  | nil => intro σ fs v; exact storeLe_refl σ
  | cons k rest ih =>
      intro σ fs v
      cases rest with
      | nil => exact storeLe_refl σ
      | cons k2 rest2 =>
          simp only [setPathParts]
          exact storeLe_trans (ih σ _ v) (storeLe_alloc _ _)

theorem setPath_storeLe (σ : Store) (r : Nat) (path : String) (v : Val) :
    storeLe σ (setPath σ r path v).1 := by
  simp only [setPath]
  exact storeLe_trans (setPathParts_storeLe _ σ _ v) (storeLe_alloc _ _)

theorem setPath_ref_lt (σ : Store) (r : Nat) (path : String) (v : Val) :
    (setPath σ r path v).2 < (setPath σ r path v).1.length := by
  simp [setPath, alloc]

theorem mergeFields_storeLe (child : Store → Nat → Nat → Store × Nat)
    (hchild : ∀ σ t s, storeLe σ (child σ t s).1) :
    ∀ (src : JObj) (σ : Store) (acc : JObj),
      storeLe σ (mergeFields child σ acc src).1 := by
  intro src
  induction src with
  | nil => intro σ acc; exact storeLe_refl σ
  | cons kv rest ih =>
      intro σ acc
      obtain ⟨key, sv⟩ := kv
      simp only [mergeFields]
      cases hl : lookupField acc key with
      | none => cases sv <;> exact ih σ _
      | some tv =>
          cases tv <;> cases sv <;> first
            | exact ih σ _
            | exact storeLe_trans (hchild σ _ _) (ih _ _)

theorem mergeDeepAux_storeLe :
    ∀ (fuel : Nat) (σ : Store) (t s : Nat), storeLe σ (mergeDeepAux fuel σ t s).1 := by
  intro fuel
  induction fuel with
  | zero => intro σ t s; exact storeLe_alloc _ _
  | succ fuel ih =>
      intro σ t s
      simp only [mergeDeepAux]
      exact storeLe_trans (mergeFields_storeLe _ (fun σ' t' s' => ih σ' t' s') _ σ _)
        (storeLe_alloc _ _)

theorem mergeDeep_storeLe (σ : Store) (t s : Nat) : storeLe σ (mergeDeep σ t s).1 :=
  mergeDeepAux_storeLe MAX_MERGE_DEPTH σ t s

theorem mergeDeepAux_ref_lt (fuel : Nat) (σ : Store) (t s : Nat) :
    (mergeDeepAux fuel σ t s).2 < (mergeDeepAux fuel σ t s).1.length := by
  cases fuel <;> simp [mergeDeepAux, alloc]

/-! ### Top-level key preservation -/

theorem lookupField_spreadMerge_not_mem :
    ∀ (src acc : JObj) (k : String), k ∉ src.map Prod.fst →
      lookupField (spreadMerge acc src) k = lookupField acc k := by
  intro src
  induction src with
  | nil => intro acc k _; rfl
  | cons kv rest ih =>
      intro acc k hk
      obtain ⟨key, sv⟩ := kv
      simp only [List.map_cons, List.mem_cons, not_or] at hk
      simp only [spreadMerge, List.foldl_cons]
      rw [show (List.foldl (fun acc kv => setField acc kv.1 kv.2)
            (setField acc key sv) rest) = spreadMerge (setField acc key sv) rest from rfl]
      rw [ih _ k hk.2, lookupField_setField_ne _ _ _ _ (fun hh => hk.1 hh.symm)]

theorem lookupField_mergeFields_not_mem (child : Store → Nat → Nat → Store × Nat) :
    ∀ (src : JObj) (σ : Store) (acc : JObj) (k : String), k ∉ src.map Prod.fst →
      lookupField (mergeFields child σ acc src).2 k = lookupField acc k := by
  intro src
  induction src with
  | nil => intro σ acc k _; rfl
  | cons kv rest ih =>
      intro σ acc k hk
      obtain ⟨key, sv⟩ := kv
      simp only [List.map_cons, List.mem_cons, not_or] at hk
      have hne : key ≠ k := fun hh => hk.1 hh.symm
      simp only [mergeFields]
      cases hl : lookupField acc key with
      | none =>
          cases sv <;>
            rw [ih _ _ _ hk.2, lookupField_setField_ne _ _ _ _ hne]
      | some tv =>
          cases tv <;> cases sv <;>
            rw [ih _ _ _ hk.2, lookupField_setField_ne _ _ _ _ hne]

theorem mergeDeepAux_lookup_not_source (fuel : Nat) (σ : Store) (t s : Nat) (k : String)
    (hk : k ∉ (getObj σ s).map Prod.fst) :
    lookupField (getObj (mergeDeepAux fuel σ t s).1 (mergeDeepAux fuel σ t s).2) k =
      lookupField (getObj σ t) k := by
  cases fuel with
  | zero =>
      simp only [mergeDeepAux]
      rw [getObj_alloc_new]
      exact lookupField_spreadMerge_not_mem _ _ _ hk
  | succ fuel =>
      simp only [mergeDeepAux]
      rw [getObj_alloc_new]
      exact lookupField_mergeFields_not_mem _ _ _ _ _ hk

theorem setPathParts_lookup_ne :
    ∀ (parts : List String) (σ : Store) (fs : JObj) (v : Val) (k : String),
      parts.headD "" ≠ k →
      lookupField (setPathParts σ fs parts v).2 k = lookupField fs k := by
  intro parts
  cases parts with
  | nil => intro σ fs v k _; rfl
  | cons key rest =>
      intro σ fs v k hk
      simp only [List.headD_cons] at hk
      cases rest with
      | nil => exact lookupField_setField_ne _ _ _ _ hk
      | cons k2 rest2 =>
          simp only [setPathParts]
          exact lookupField_setField_ne _ _ _ _ hk

theorem setPath_lookup_ne (σ : Store) (r : Nat) (path : String) (v : Val) (k : String)
    (hk : firstSegment path ≠ k) :
    lookupField (getObj (setPath σ r path v).1 (setPath σ r path v).2) k =
      lookupField (getObj σ r) k := by
  simp only [setPath]
  rw [getObj_alloc_new]
  exact setPathParts_lookup_ne _ _ _ _ _ hk

theorem internFields_keys (l : List (String × PureVal)) :
    ∀ σ, (internFields σ l).2.map Prod.fst = l.map Prod.fst := by
  induction l with
  | nil => intro σ; rfl
  | cons kv ts ih =>
      intro σ
      obtain ⟨k, t⟩ := kv
      simp only [internFields, List.map_cons, ih]


theorem enrich_fields (σ : Store) (b : BuilderRec) (objRef : Nat) (k : String)
    (hfin : b.finalized = false) (hev : b.event < σ.length)
    (hk : k ∉ (getObj σ objRef).map Prod.fst) :
    (EventBuilder.enrich σ b objRef).2.finalized = false ∧
      (EventBuilder.enrich σ b objRef).2.event < (EventBuilder.enrich σ b objRef).1.length ∧
      lookupField
          (getObj (EventBuilder.enrich σ b objRef).1 (EventBuilder.enrich σ b objRef).2.event)
          k =
        lookupField (getObj σ b.event) k := by
  simp only [EventBuilder.enrich, hfin, Bool.false_eq_true, if_false]
  exact ⟨trivial, mergeDeepAux_ref_lt _ _ _ _, mergeDeepAux_lookup_not_source _ _ _ _ _ hk⟩

theorem set_fields (σ : Store) (b : BuilderRec) (path : String) (v : Val) (k : String)
    (hfin : b.finalized = false) (hk : firstSegment path ≠ k) :
    (EventBuilder.set σ b path v).2.finalized = false ∧
      (EventBuilder.set σ b path v).2.event < (EventBuilder.set σ b path v).1.length ∧
      lookupField
          (getObj (EventBuilder.set σ b path v).1 (EventBuilder.set σ b path v).2.event) k =
        lookupField (getObj σ b.event) k := by
  simp only [EventBuilder.set, hfin, Bool.false_eq_true, if_false]
  exact ⟨trivial, setPath_ref_lt _ _ _ _, setPath_lookup_ne _ _ _ _ _ hk⟩

theorem markError_fields (σ : Store) (b : BuilderRec) (err : Val)
    (hfin : b.finalized = false) (hev : b.event < σ.length)
    (hab : lookupField (getObj σ b.event) "outcome" ≠ some (.vStr "aborted")) :
    (EventBuilder.markError σ b err).2 = b ∧
      b.event < (EventBuilder.markError σ b err).1.length ∧
      lookupField (getObj (EventBuilder.markError σ b err).1 b.event) "outcome" =
        some (.vStr "error") ∧
      ∃ r, lookupField (getObj (EventBuilder.markError σ b err).1 b.event) "error" =
        some (.vRef r) := by
  simp only [EventBuilder.markError, hfin, Bool.false_eq_true, if_false]
  set a := alloc σ (normalizeError σ err) with ha
  have hlen1 : b.event < a.1.length :=
    Nat.lt_of_lt_of_le hev (storeLe_length (storeLe_alloc _ _))
  have hbase : getObj a.1 b.event = getObj σ b.event :=
    getObj_storeLe (storeLe_alloc _ _) hev
  set σ1 := updateObj a.1 b.event (fun fields => setField fields "error" (.vRef a.2)) with hσ1
  have g1 : getObj σ1 b.event = setField (getObj σ b.event) "error" (.vRef a.2) := by
    rw [hσ1, getObj_updateObj_self _ hlen1, hbase]
  have hcond : lookupField (getObj σ1 b.event) "outcome" ≠ some (.vStr "aborted") := by
    rw [g1, lookupField_setField_ne _ _ _ _ (by decide)]
    exact hab
  rw [if_pos hcond]
  have hlen2 : b.event < σ1.length := by
    rw [hσ1, length_updateObj]; exact hlen1
  have g2 : getObj (updateObj σ1 b.event
      (fun fields => setField fields "outcome" (.vStr "error"))) b.event =
      setField (setField (getObj σ b.event) "error" (.vRef a.2)) "outcome" (.vStr "error") := by
    rw [getObj_updateObj_self _ hlen2, g1]
  refine ⟨trivial, ?_, ?_, ?_⟩
  · rw [length_updateObj]; exact hlen2
  · rw [g2, lookupField_setField_self]
  · refine ⟨a.2, ?_⟩
    rw [g2, lookupField_setField_ne _ _ _ _ (by decide), lookupField_setField_self]

theorem outcomeInv_applyBOp (st : Store × BuilderRec) (marked : Bool) (op : BOp)
    (h1 : op.writesKey "outcome" = false) (h2 : op.writesKey "error" = false)
    (h : outcomeInv st marked) :
    outcomeInv (applyBOp st op) (marked || op.isMarkError) := by
  obtain ⟨hfin, hev, hfields⟩ := h
  cases op with
  | enrich fs =>
      have h1' : "outcome" ∉ fs.map Prod.fst := by simpa [BOp.writesKey] using h1
      have h2' : "error" ∉ fs.map Prod.fst := by simpa [BOp.writesKey] using h2
      simp only [applyBOp, BOp.isMarkError, Bool.or_false]
      have hkeys : (getObj (alloc (internFields st.1 fs).1 (internFields st.1 fs).2).1
          (alloc (internFields st.1 fs).1 (internFields st.1 fs).2).2).map Prod.fst =
          fs.map Prod.fst := by
        rw [getObj_alloc_new, internFields_keys]
      have hev' : st.2.event < (alloc (internFields st.1 fs).1 (internFields st.1 fs).2).1.length :=
        Nat.lt_of_lt_of_le hev
          (storeLe_length (storeLe_trans (internFields_storeLe fs st.1) (storeLe_alloc _ _)))
      have hbase : getObj (alloc (internFields st.1 fs).1 (internFields st.1 fs).2).1
          st.2.event = getObj st.1 st.2.event :=
        getObj_storeLe (storeLe_trans (internFields_storeLe fs st.1) (storeLe_alloc _ _)) hev
      have eO := enrich_fields (alloc (internFields st.1 fs).1 (internFields st.1 fs).2).1
        st.2 (alloc (internFields st.1 fs).1 (internFields st.1 fs).2).2 "outcome" hfin hev'
        (by rw [hkeys]; exact h1')
      have eE := enrich_fields (alloc (internFields st.1 fs).1 (internFields st.1 fs).2).1
        st.2 (alloc (internFields st.1 fs).1 (internFields st.1 fs).2).2 "error" hfin hev'
        (by rw [hkeys]; exact h2')
      refine ⟨eO.1, eO.2.1, ?_⟩
      rw [eO.2.2, eE.2.2, hbase] at *
      cases marked with
      | true => simpa using hfields
      | false => simpa using hfields
  | set p v =>
      have h1' : firstSegment p ≠ "outcome" := by simpa [BOp.writesKey] using h1
      have h2' : firstSegment p ≠ "error" := by simpa [BOp.writesKey] using h2
      simp only [applyBOp, BOp.isMarkError, Bool.or_false]
      have hbase : getObj (intern st.1 v).1 st.2.event = getObj st.1 st.2.event :=
        getObj_storeLe (intern_storeLe v st.1) hev
      have eO := set_fields (intern st.1 v).1 st.2 p (intern st.1 v).2 "outcome" hfin h1'
      have eE := set_fields (intern st.1 v).1 st.2 p (intern st.1 v).2 "error" hfin h2'
      refine ⟨eO.1, eO.2.1, ?_⟩
      rw [eO.2.2, eE.2.2, hbase] at *
      cases marked with
      | true => simpa using hfields
      | false => simpa using hfields
  | markError e =>
      simp only [applyBOp, BOp.isMarkError, Bool.or_true]
      have hev' : st.2.event < (intern st.1 e).1.length :=
        Nat.lt_of_lt_of_le hev (storeLe_length (intern_storeLe e st.1))
      have hbase : getObj (intern st.1 e).1 st.2.event = getObj st.1 st.2.event :=
        getObj_storeLe (intern_storeLe e st.1) hev
      have hab : lookupField (getObj (intern st.1 e).1 st.2.event) "outcome" ≠
          some (.vStr "aborted") := by
        rw [hbase]
        cases marked with
        | true =>
            simp only [if_true] at hfields
            rw [hfields.1]
            simp
        | false =>
            simp only [Bool.false_eq_true, if_false] at hfields
            rw [hfields.1]
            simp
      have me := markError_fields (intern st.1 e).1 st.2 (intern st.1 e).2 hfin hev' hab
      refine ⟨by rw [me.1]; exact hfin, ?_, ?_⟩
      · rw [me.1]; exact me.2.1
      · rw [me.1]
        simp only [if_true]
        exact ⟨me.2.2.1, me.2.2.2⟩

theorem outcomeInv_runBOps (ops : List BOp) :
    ∀ (st : Store × BuilderRec) (marked : Bool),
      (∀ op ∈ ops, op.writesKey "outcome" = false ∧ op.writesKey "error" = false) →
      outcomeInv st marked →
      outcomeInv (runBOps st ops) (marked || ops.any BOp.isMarkError) := by
  induction ops with
  | nil => intro st marked _ h; simpa [runBOps] using h
  | cons op rest ih =>
      intro st marked hops h
      have hstep := outcomeInv_applyBOp st marked op (hops op (by simp)).1
        (hops op (by simp)).2 h
      have hrest := ih (applyBOp st op) (marked || op.isMarkError)
        (fun o ho => hops o (by simp [ho])) hstep
      simpa [runBOps, List.any_cons, Bool.or_assoc] using hrest

theorem finalize_outcome_of_inv (st : Store × BuilderRec) (marked : Bool)
    (hint : RequestOutcome) (statusCode now : ℚ) (h : outcomeInv st marked) :
    lookupField
        (getObj (EventBuilder.finalize st.1 st.2 hint statusCode now).1
          (EventBuilder.finalize st.1 st.2 hint statusCode now).2.1.event) "outcome" =
      some (outcomePolicySpec marked hint statusCode).toVal := by
  obtain ⟨hfin, hev, hfields⟩ := h
  simp only [EventBuilder.finalize, hfin, Bool.false_eq_true, if_false]
  set σ1 := updateObj st.1 st.2.event (fun fields =>
      setField fields "duration_ms" (.vNum (durationMs st.2.startTime now))) with hs1
  set σ2 := updateObj σ1 st.2.event (fun fields =>
      setField fields "status_code" (.vNum statusCode)) with hs2
  have hl1 : st.2.event < σ1.length := by rw [hs1, length_updateObj]; exact hev
  have hl2 : st.2.event < σ2.length := by rw [hs2, length_updateObj]; exact hl1
  have g1 : getObj σ1 st.2.event =
      setField (getObj st.1 st.2.event) "duration_ms" (.vNum (durationMs st.2.startTime now)) := by
    rw [hs1, getObj_updateObj_self _ hev]
  have g2 : getObj σ2 st.2.event =
      setField (setField (getObj st.1 st.2.event) "duration_ms"
          (.vNum (durationMs st.2.startTime now))) "status_code" (.vNum statusCode) := by
    rw [hs2, getObj_updateObj_self _ hl1, g1]
  have hO2 : lookupField (getObj σ2 st.2.event) "outcome" =
      lookupField (getObj st.1 st.2.event) "outcome" := by
    rw [g2, lookupField_setField_ne _ _ _ _ (by decide),
      lookupField_setField_ne _ _ _ _ (by decide)]
  have hE2 : lookupField (getObj σ2 st.2.event) "error" =
      lookupField (getObj st.1 st.2.event) "error" := by
    rw [g2, lookupField_setField_ne _ _ _ _ (by decide),
      lookupField_setField_ne _ _ _ _ (by decide)]
  have hsnap : ∀ (σ' : Store), st.2.event < σ'.length →
      getObj (snapshotObj σ' st.2.event).1 st.2.event = getObj σ' st.2.event :=
    fun σ' hlt => getObj_storeLe (snapshotObj_storeLe σ' st.2.event) hlt
  cases marked with
  | true =>
      simp only [if_true] at hfields
      rw [hO2, hfields.1,
        if_neg (show ¬(isFalsyProp (some (Val.vStr "error")) = true) by decide)]
      rw [hsnap σ2 hl2, hO2, hfields.1]
      simp [outcomePolicySpec, RequestOutcome.toVal]
  | false =>
      simp only [Bool.false_eq_true, if_false] at hfields
      rw [hO2, hfields.1, if_pos (show isFalsyProp none = true from rfl)]
      by_cases hab : hint = .aborted
      · rw [if_pos hab]
        have hl3 : st.2.event <
            (updateObj σ2 st.2.event (fun fields =>
              setField fields "outcome" (.vStr "aborted"))).length := by
          rw [length_updateObj]; exact hl2
        rw [hsnap _ hl3, getObj_updateObj_self _ hl2, lookupField_setField_self]
        simp [outcomePolicySpec, hab, RequestOutcome.toVal]
      · rw [if_neg hab]
        rw [hE2, hfields.2]
        by_cases hsc : statusCode ≥ 500
        · rw [if_pos (Or.inr hsc)]
          have hl3 : st.2.event <
              (updateObj σ2 st.2.event (fun fields =>
                setField fields "outcome" (.vStr "error"))).length := by
            rw [length_updateObj]; exact hl2
          rw [hsnap _ hl3, getObj_updateObj_self _ hl2, lookupField_setField_self]
          simp [outcomePolicySpec, hab, hsc, RequestOutcome.toVal]
        · rw [if_neg (by
            intro hcontra
            rcases hcontra with hc | hc
            · exact absurd hc (by decide)
            · exact hsc hc)]
          have hl3 : st.2.event <
              (updateObj σ2 st.2.event (fun fields =>
                setField fields "outcome" hint.toVal)).length := by
            rw [length_updateObj]; exact hl2
          rw [hsnap _ hl3, getObj_updateObj_self _ hl2, lookupField_setField_self]
          simp [outcomePolicySpec, hab, hsc]

/-! ### Validity and strip stability -/

theorem valListRefsLtB_mem {n : Nat} : ∀ {l : List Val}, valListRefsLtB n l = true →
    ∀ {v : Val}, v ∈ l → valRefsLtB n v = true := by
  intro l
  induction l with
  | nil => intro _ v hv; cases hv
  | cons x xs ih =>
      intro h v hv
      simp only [valListRefsLtB, Bool.and_eq_true] at h
      rcases List.mem_cons.mp hv with rfl | hv'
      · exact h.1
      · exact ih h.2 hv'

theorem valRefsLtB_mono {n m : Nat} (h : n ≤ m) :
    ∀ v, valRefsLtB n v = true → valRefsLtB m v = true := by
  intro v
  induction v using Val.recMem with
  | hNull => intro _; rfl
  | hUndef => intro _; rfl
  | hStr s => intro _; rfl
  | hNum q => intro _; rfl
  | hBool b => intro _; rfl
  | hRef r =>
      intro hv
      simp only [valRefsLtB, decide_eq_true_eq] at hv ⊢
      omega
  | hArr l ih =>
      intro hv
      simp only [valRefsLtB] at hv ⊢
      suffices hs : ∀ xs, (∀ v ∈ xs, valRefsLtB n v = true → valRefsLtB m v = true) →
          valListRefsLtB n xs = true → valListRefsLtB m xs = true from hs l ih hv
      intro xs
      induction xs with
      | nil => intro _ _; rfl
      | cons x xs2 ihl =>
          intro hmem hxs
          simp only [valListRefsLtB, Bool.and_eq_true] at hxs ⊢
          exact ⟨hmem x (by simp) hxs.1,
                 ihl (fun v hv2 => hmem v (by simp [hv2])) hxs.2⟩

theorem objRefsLtB_mono {n m : Nat} (h : n ≤ m) {o : JObj} (ho : objRefsLtB n o = true) :
    objRefsLtB m o = true := by
  simp only [objRefsLtB, List.all_eq_true] at ho ⊢
  exact fun kv hkv => valRefsLtB_mono h kv.2 (ho kv hkv)

theorem validStore_getObj {σ : Store} (h : validStoreB σ = true) (r : Nat) :
    ∀ kv ∈ getObj σ r, valRefsLtB σ.length kv.2 = true := by
  intro kv hkv
  by_cases hr : r < σ.length
  · have hmem : getObj σ r ∈ σ := by
      have hg : getObj σ r = σ[r] := by
        simp [getObj, List.getD_eq_getElem?_getD, List.getElem?_eq_getElem hr]
      rw [hg]
      exact List.getElem_mem hr
    simp only [validStoreB, List.all_eq_true] at h
    have := h _ hmem
    simp only [objRefsLtB, List.all_eq_true] at this
    exact this kv hkv
  · have : getObj σ r = [] := by
      simp [getObj, List.getD_eq_getElem?_getD,
        List.getElem?_eq_none (by omega : σ.length ≤ r)]
    rw [this] at hkv
    cases hkv

theorem stripList_storeLe {σ σ' : Store} (hle : storeLe σ σ') (hval : validStoreB σ = true) :
    ∀ (fuel : Nat) (v : Val), valRefsLtB σ.length v = true →
      strip σ' fuel v = strip σ fuel v := by
  intro fuel
  induction fuel with
  | zero => intro v _; rfl
  | succ fuel ih =>
      intro v hv
      cases v with
      | vNull => rfl
      | vUndef => rfl
      | vStr s => rfl
      | vNum q => rfl
      | vBool b => rfl
      | vArr elems =>
          simp only [strip]
          congr 1
          apply List.map_congr_left
          intro e he
          simp only [valRefsLtB] at hv
          exact ih e (valListRefsLtB_mem hv he)
      | vRef r =>
          simp only [strip]
          have hr : r < σ.length := by
            simpa [valRefsLtB, decide_eq_true_eq] using hv
          rw [getObj_storeLe hle hr]
          congr 1
          apply List.map_congr_left
          intro kv hkv
          rw [ih kv.2 (validStore_getObj hval r kv hkv)]

/-- `strip` is stable under store extension for values whose references lie
inside a closed store. -/
theorem strip_storeLe {σ σ' : Store} (hle : storeLe σ σ') (hval : validStoreB σ = true)
    (fuel : Nat) (v : Val) (hv : valRefsLtB σ.length v = true) :
    strip σ' fuel v = strip σ fuel v :=
  stripList_storeLe hle hval fuel v hv

theorem stripFields_storeLe {σ σ' : Store} (hle : storeLe σ σ') (hval : validStoreB σ = true)
    (fuel : Nat) (l : JObj) (hl : objRefsLtB σ.length l = true) :
    stripFields σ' fuel l = stripFields σ fuel l := by
  apply List.map_congr_left
  intro kv hkv
  simp only [objRefsLtB, List.all_eq_true] at hl
  rw [strip_storeLe hle hval fuel kv.2 (hl kv hkv)]

theorem nullifyTruncList_eq_map : ∀ l : List PureVal, nullifyTruncList l = l.map nullifyTrunc := by
  intro l
  induction l with
  | nil => rfl
  | cons t ts ih => simp [nullifyTruncList, ih]

theorem nullifyTruncFields_eq_map : ∀ l : List (String × PureVal),
    nullifyTruncFields l = l.map (fun kv => (kv.1, nullifyTrunc kv.2)) := by
  intro l
  induction l with
  | nil => rfl
  | cons kv ts ih =>
      obtain ⟨k, t⟩ := kv
      simp [nullifyTruncFields, ih]

/-- Cutting after filling: for `F ≤ F0`, truncating the null-filled `F0`-strip
at depth `F` is the `F`-strip. -/
theorem truncate_nullify_strip (σ : Store) :
    ∀ (F F0 : Nat), F ≤ F0 → ∀ v, truncate F (nullifyTrunc (strip σ F0 v)) = strip σ F v := by
  intro F
  induction F with
  | zero => intro F0 _ v; rfl
  | succ F ih =>
      intro F0 hF v
      cases F0 with
      | zero => omega
      | succ F0 =>
          cases v with
          | vNull => rfl
          | vUndef => rfl
          | vStr s => rfl
          | vNum q => rfl
          | vBool b => rfl
          | vArr elems =>
              simp only [strip, nullifyTrunc, nullifyTruncList_eq_map, truncate,
                List.map_map]
              congr 1
              apply List.map_congr_left
              intro e _
              exact ih F0 (by omega) e
          | vRef r =>
              simp only [strip, nullifyTrunc, nullifyTruncFields_eq_map, truncate,
                List.map_map]
              congr 1
              apply List.map_congr_left
              intro kv _
              simp only [Function.comp]
              rw [ih F0 (by omega) kv.2]

/-! ### Cloning: freshness and faithfulness of `intern` -/

theorem valRefsGeB_mono {n m : Nat} (h : m ≤ n) :
    ∀ v, valRefsGeB n v = true → valRefsGeB m v = true := by
  intro v
  induction v using Val.recMem with
  | hNull => intro _; rfl
  | hUndef => intro _; rfl
  | hStr s => intro _; rfl
  | hNum q => intro _; rfl
  | hBool b => intro _; rfl
  | hRef r =>
      intro hv
      simp only [valRefsGeB, decide_eq_true_eq] at hv ⊢
      omega
  | hArr l ih =>
      intro hv
      simp only [valRefsGeB] at hv ⊢
      suffices hs : ∀ xs, (∀ v ∈ xs, valRefsGeB n v = true → valRefsGeB m v = true) →
          valListRefsGeB n xs = true → valListRefsGeB m xs = true from hs l ih hv
      intro xs
      induction xs with
      | nil => intro _ _; rfl
      | cons x xs2 ihl =>
          intro hmem hxs
          simp only [valListRefsGeB, Bool.and_eq_true] at hxs ⊢
          exact ⟨hmem x (by simp) hxs.1,
                 ihl (fun v hv2 => hmem v (by simp [hv2])) hxs.2⟩

theorem valListRefsGeB_mono {n m : Nat} (h : m ≤ n) :
    ∀ l, valListRefsGeB n l = true → valListRefsGeB m l = true := by
  intro l hl
  have := valRefsGeB_mono h (.vArr l) (by simpa [valRefsGeB] using hl)
  simpa [valRefsGeB] using this


theorem newRegionClosed_refl (σ : Store) : newRegionClosed σ σ :=
  fun _ h1 h2 => absurd (Nat.lt_of_le_of_lt h1 h2) (Nat.lt_irrefl _)

theorem newRegionClosed_trans {σ σ1 σ2 : Store} (h1 : storeLe σ σ1) (h2 : storeLe σ1 σ2)
    (hc1 : newRegionClosed σ σ1) (hc2 : newRegionClosed σ1 σ2) : newRegionClosed σ σ2 := by
  intro j hj1 hj2 kv hkv
  by_cases hj : j < σ1.length
  · rw [getObj_storeLe h2 hj] at hkv
    obtain ⟨hge, hlt⟩ := hc1 j hj1 hj kv hkv
    exact ⟨hge, valRefsLtB_mono (storeLe_length h2) _ hlt⟩
  · obtain ⟨hge, hlt⟩ := hc2 j (by omega) hj2 kv hkv
    exact ⟨valRefsGeB_mono (storeLe_length h1) _ hge, hlt⟩

/-- The full specification of `intern`: the result value is entirely fresh
(references only into the appended region), the appended region never
references the original store, and stripping the result in any further
extension of the store recovers the tree (with truncation marks filled by
`null`). -/
theorem intern_spec :
    ∀ (t : PureVal) (σ : Store),
      valRefsGeB σ.length (intern σ t).2 = true ∧
        valRefsLtB (intern σ t).1.length (intern σ t).2 = true ∧
        newRegionClosed σ (intern σ t).1 ∧
        ∀ σ2, storeLe (intern σ t).1 σ2 →
          ∀ F, strip σ2 F (intern σ t).2 = truncate F (nullifyTrunc t) := by
  have hlist : ∀ (l : List PureVal),
      (∀ t ∈ l, ∀ σ, valRefsGeB σ.length (intern σ t).2 = true ∧
        valRefsLtB (intern σ t).1.length (intern σ t).2 = true ∧
        newRegionClosed σ (intern σ t).1 ∧
        ∀ σ2, storeLe (intern σ t).1 σ2 →
          ∀ F, strip σ2 F (intern σ t).2 = truncate F (nullifyTrunc t)) →
      ∀ σ, valListRefsGeB σ.length (internList σ l).2 = true ∧
        valListRefsLtB (internList σ l).1.length (internList σ l).2 = true ∧
        newRegionClosed σ (internList σ l).1 ∧
        ∀ σ2, storeLe (internList σ l).1 σ2 →
          ∀ F, (internList σ l).2.map (fun v => strip σ2 F v) =
            l.map (fun t => truncate F (nullifyTrunc t)) := by
    intro l
    induction l with
    | nil =>
        intro _ σ
        exact ⟨rfl, rfl, newRegionClosed_refl σ, fun _ _ _ => rfl⟩
    | cons t ts ih =>
        intro hmem σ
        obtain ⟨hge, hlt, hreg, hstrip⟩ := hmem t (by simp) σ
        obtain ⟨hge2, hlt2, hreg2, hstrip2⟩ :=
          ih (fun v hv => hmem v (by simp [hv])) (intern σ t).1
        have hle1 : storeLe σ (intern σ t).1 := intern_storeLe t σ
        have hle2 : storeLe (intern σ t).1 (internList (intern σ t).1 ts).1 :=
          internList_storeLe ts (intern σ t).1
        refine ⟨?_, ?_, ?_, ?_⟩
        · simp only [internList, valListRefsGeB, Bool.and_eq_true]
          exact ⟨hge, valListRefsGeB_mono (storeLe_length hle1) _ hge2⟩
        · simp only [internList, valListRefsLtB, Bool.and_eq_true]
          exact ⟨valRefsLtB_mono (storeLe_length hle2) _ hlt, hlt2⟩
        · exact newRegionClosed_trans hle1 hle2 hreg hreg2
        · intro σ2 hσ2 F
          simp only [internList, List.map_cons]
          rw [hstrip σ2 (storeLe_trans hle2 hσ2) F]
          have := hstrip2 σ2 hσ2 F
          rw [this]
  have hfields : ∀ (l : List (String × PureVal)),
      (∀ kv ∈ l, ∀ σ, valRefsGeB σ.length (intern σ (Prod.snd kv)).2 = true ∧
        valRefsLtB (intern σ (Prod.snd kv)).1.length (intern σ (Prod.snd kv)).2 = true ∧
        newRegionClosed σ (intern σ (Prod.snd kv)).1 ∧
        ∀ σ2, storeLe (intern σ (Prod.snd kv)).1 σ2 →
          ∀ F, strip σ2 F (intern σ (Prod.snd kv)).2 =
            truncate F (nullifyTrunc (Prod.snd kv))) →
      ∀ σ, objRefsGeB σ.length (internFields σ l).2 = true ∧
        objRefsLtB (internFields σ l).1.length (internFields σ l).2 = true ∧
        newRegionClosed σ (internFields σ l).1 ∧
        ∀ σ2, storeLe (internFields σ l).1 σ2 →
          ∀ F, stripFields σ2 F (internFields σ l).2 =
            l.map (fun kv => (kv.1, truncate F (nullifyTrunc kv.2))) := by
    intro l
    induction l with
    | nil =>
        intro _ σ
        exact ⟨rfl, rfl, newRegionClosed_refl σ, fun _ _ _ => rfl⟩
    | cons kv ts ih =>
        intro hmem σ
        obtain ⟨k, t⟩ := kv
        obtain ⟨hge, hlt, hreg, hstrip⟩ := hmem (k, t) (by simp) σ
        obtain ⟨hge2, hlt2, hreg2, hstrip2⟩ :=
          ih (fun v hv => hmem v (by simp [hv])) (intern σ t).1
        have hle1 : storeLe σ (intern σ t).1 := intern_storeLe t σ
        have hle2 : storeLe (intern σ t).1 (internFields (intern σ t).1 ts).1 :=
          internFields_storeLe ts (intern σ t).1
        refine ⟨?_, ?_, ?_, ?_⟩
        · simp only [internFields, objRefsGeB, List.all_cons, Bool.and_eq_true]
          refine ⟨hge, ?_⟩
          simp only [objRefsGeB, List.all_eq_true] at hge2 ⊢
          exact fun x hx => valRefsGeB_mono (storeLe_length hle1) _ (hge2 x hx)
        · simp only [internFields, objRefsLtB, List.all_cons, Bool.and_eq_true]
          refine ⟨valRefsLtB_mono (storeLe_length hle2) _ hlt, ?_⟩
          simp only [objRefsLtB, List.all_eq_true] at hlt2 ⊢
          exact fun x hx => hlt2 x hx
        · exact newRegionClosed_trans hle1 hle2 hreg hreg2
        · intro σ2 hσ2 F
          simp only [internFields, stripFields, List.map_cons]
          rw [hstrip σ2 (storeLe_trans hle2 hσ2) F]
          have := hstrip2 σ2 hσ2 F
          simp only [stripFields] at this
          rw [this]
  intro t
  induction t using PureVal.recMem with
  | hNull =>
      intro σ
      exact ⟨rfl, rfl, newRegionClosed_refl σ, fun σ2 _ F => by cases F <;> rfl⟩
  | hUndef =>
      intro σ
      exact ⟨rfl, rfl, newRegionClosed_refl σ, fun σ2 _ F => by cases F <;> rfl⟩
  | hStr s =>
      intro σ
      exact ⟨rfl, rfl, newRegionClosed_refl σ, fun σ2 _ F => by cases F <;> rfl⟩
  | hNum q =>
      intro σ
      exact ⟨rfl, rfl, newRegionClosed_refl σ, fun σ2 _ F => by cases F <;> rfl⟩
  | hBool b =>
      intro σ
      exact ⟨rfl, rfl, newRegionClosed_refl σ, fun σ2 _ F => by cases F <;> rfl⟩
  | hTrunc =>
      intro σ
      exact ⟨rfl, rfl, newRegionClosed_refl σ, fun σ2 _ F => by cases F <;> rfl⟩
  | hArr l ih =>
      intro σ
      obtain ⟨hge, hlt, hreg, hstrip⟩ := hlist l ih σ
      refine ⟨?_, ?_, ?_, ?_⟩
      · simpa [intern, valRefsGeB] using hge
      · simpa [intern, valRefsLtB] using hlt
      · simpa [intern] using hreg
      · intro σ2 hσ2 F
        cases F with
        | zero => rfl
        | succ F =>
            simp only [intern, strip, nullifyTrunc, truncate, nullifyTruncList_eq_map,
              List.map_map]
            have := hstrip σ2 (by simpa [intern] using hσ2) F
            simp only [intern] at this ⊢
            rw [this]
            rfl
  | hObj l ih =>
      intro σ
      obtain ⟨hge, hlt, hreg, hstrip⟩ := hfields l ih σ
      have hle1 : storeLe σ (internFields σ l).1 := internFields_storeLe l σ
      have hroot : (intern σ (.pObj l)).2 = .vRef (internFields σ l).1.length := rfl
      have hstore : (intern σ (.pObj l)).1 = (internFields σ l).1 ++ [(internFields σ l).2] :=
        rfl
      refine ⟨?_, ?_, ?_, ?_⟩
      · rw [hroot]
        simp only [valRefsGeB, decide_eq_true_eq]
        exact storeLe_length hle1
      · rw [hroot, hstore]
        simp only [valRefsLtB, decide_eq_true_eq, List.length_append, List.length_cons,
          List.length_nil]
        omega
      · intro j hj1 hj2 kv hkv
        rw [hstore] at hj2
        simp only [List.length_append, List.length_cons, List.length_nil] at hj2
        by_cases hj : j < (internFields σ l).1.length
        · rw [hstore, getObj_append _ hj] at hkv
          obtain ⟨hg, hl2⟩ := hreg j hj1 hj kv hkv
          refine ⟨hg, ?_⟩
          rw [hstore]
          refine valRefsLtB_mono ?_ _ hl2
          simp
        · have hj' : j = (internFields σ l).1.length := by omega
          subst hj'
          rw [hstore] at hkv
          rw [show getObj ((internFields σ l).1 ++ [(internFields σ l).2])
              (internFields σ l).1.length = (internFields σ l).2 from
            getObj_alloc_new (internFields σ l).1 (internFields σ l).2] at hkv
          simp only [objRefsGeB, List.all_eq_true] at hge
          simp only [objRefsLtB, List.all_eq_true] at hlt
          refine ⟨hge kv hkv, ?_⟩
          rw [hstore]
          refine valRefsLtB_mono ?_ _ (hlt kv hkv)
          simp
      · intro σ2 hσ2 F
        cases F with
        | zero => rfl
        | succ F =>
            rw [hroot]
            simp only [strip]
            have hrootlt : (internFields σ l).1.length < (intern σ (.pObj l)).1.length := by
              rw [hstore]; simp
            have hgobj : getObj σ2 (internFields σ l).1.length = (internFields σ l).2 := by
              rw [getObj_storeLe hσ2 hrootlt, hstore]
              exact getObj_alloc_new (internFields σ l).1 (internFields σ l).2
            rw [hgobj]
            have := hstrip σ2 (storeLe_trans (by rw [hstore]; exact storeLe_alloc _ _) hσ2) F
            simp only [stripFields] at this
            rw [this]
            simp [nullifyTrunc, truncate, nullifyTruncFields_eq_map, List.map_map]

/-- `snapshotObj` produces a fresh object whose strip, in any extension of
the resulting store, is the null-filled truncation of the source's strip. -/
theorem snapshotObj_spec (σ : Store) (r : Nat) :
    σ.length ≤ (snapshotObj σ r).2 ∧
      newRegionClosed σ (snapshotObj σ r).1 ∧
      ∀ σ2, storeLe (snapshotObj σ r).1 σ2 → ∀ F,
        strip σ2 F (.vRef (snapshotObj σ r).2) =
          truncate F (nullifyTrunc (strip σ (σ.length + 1) (.vRef r))) := by
  have hkey : intern σ (strip σ (σ.length + 1) (.vRef r)) =
      ((snapshotObj σ r).1, .vRef (snapshotObj σ r).2) := rfl
  obtain ⟨hge, _, hreg, hstrip⟩ := intern_spec (strip σ (σ.length + 1) (.vRef r)) σ
  rw [hkey] at hge hreg hstrip
  refine ⟨?_, hreg, hstrip⟩
  simpa [valRefsGeB, decide_eq_true_eq] using hge

/-- Cloning the same object twice in a row gives structurally equal results
(down to any depth covered by the first clone's fuel). -/
theorem snapshot_twice (σ3 : Store) (ev : Nat) (hval : validStoreB σ3 = true)
    (hev : ev < σ3.length) :
    ∀ F, F ≤ σ3.length + 1 →
      strip (snapshotObj (snapshotObj σ3 ev).1 ev).1 F
          (.vRef (snapshotObj (snapshotObj σ3 ev).1 ev).2) =
        strip (snapshotObj (snapshotObj σ3 ev).1 ev).1 F (.vRef (snapshotObj σ3 ev).2) := by
  intro F hF
  have hrefev : valRefsLtB σ3.length (.vRef ev) = true := by
    simp [valRefsLtB, decide_eq_true_eq, hev]
  have hlen1 : σ3.length ≤ (snapshotObj σ3 ev).1.length :=
    storeLe_length (snapshotObj_storeLe σ3 ev)
  have lhs := (snapshotObj_spec (snapshotObj σ3 ev).1 ev).2.2
    (snapshotObj (snapshotObj σ3 ev).1 ev).1 (storeLe_refl _) F
  have hsame : strip (snapshotObj σ3 ev).1 ((snapshotObj σ3 ev).1.length + 1) (.vRef ev) =
      strip σ3 ((snapshotObj σ3 ev).1.length + 1) (.vRef ev) :=
    strip_storeLe (snapshotObj_storeLe σ3 ev) hval _ _ hrefev
  rw [hsame] at lhs
  rw [lhs, truncate_nullify_strip σ3 F _ (by omega) (.vRef ev)]
  have rhs := (snapshotObj_spec σ3 ev).2.2
    (snapshotObj (snapshotObj σ3 ev).1 ev).1 (snapshotObj_storeLe _ _) F
  rw [rhs, truncate_nullify_strip σ3 F _ (by omega) (.vRef ev)]

theorem mem_setField {α : Type} : ∀ (l : List (String × α)) (k : String) (v : α),
    ∀ kv ∈ setField l k v, kv.2 = v ∨ kv ∈ l := by
  intro l k v
  induction l with
  | nil =>
      intro kv hkv
      simp only [setField, List.mem_singleton] at hkv
      subst hkv
      exact Or.inl rfl
  | cons kw rest ih =>
      intro kv hkv
      obtain ⟨k', w⟩ := kw
      simp only [setField] at hkv
      by_cases h : k' = k
      · rw [if_pos h] at hkv
        rcases List.mem_cons.mp hkv with rfl | h2
        · exact Or.inl rfl
        · exact Or.inr (List.mem_cons_of_mem _ h2)
      · rw [if_neg h] at hkv
        rcases List.mem_cons.mp hkv with rfl | h2
        · exact Or.inr (List.mem_cons_self _ _)
        · rcases ih kv h2 with h3 | h3
          · exact Or.inl h3
          · exact Or.inr (List.mem_cons_of_mem _ h3)

/-- In-place assignment of a value with in-range references keeps the store
closed. -/
theorem validStoreB_updateObj_setField {σ : Store} (r : Nat) (k : String) (v : Val)
    (hval : validStoreB σ = true) (hv : valRefsLtB σ.length v = true) :
    validStoreB (updateObj σ r (fun fields => setField fields k v)) = true := by
  simp only [validStoreB, List.all_eq_true, updateObj, List.length_set]
  intro o ho
  rcases List.mem_or_eq_of_mem_set ho with ho' | rfl
  · simp only [validStoreB, List.all_eq_true] at hval
    exact hval o ho'
  · simp only [objRefsLtB, List.all_eq_true]
    intro kv hkv
    rcases mem_setField _ _ _ kv hkv with h2 | h2
    · rw [h2]; exact hv
    · exact validStore_getObj hval r kv h2

theorem redactLoop_storeLe (hashFn : String → String) (schema : Option CanonSchema)
    (strategy : RedactionStrategy) :
    ∀ (paths : List String) (σ : Store) (r : Nat),
      storeLe σ (redactLoop hashFn schema strategy σ r paths).1 := by
  intro paths
  induction paths with
  | nil => intro σ r; exact storeLe_refl σ
  | cons p rest ih =>
      intro σ r
      simp only [redactLoop]
      split
      · exact storeLe_trans (setPath_storeLe _ _ _ _) (ih _ _)
      · exact ih σ r


theorem lookupField_map {α β : Type} (f : α → β) :
    ∀ (l : List (String × α)) (k : String),
      lookupField (l.map (fun kv => (kv.1, f kv.2))) k = (lookupField l k).map f := by
  intro l k
  induction l with
  | nil => rfl
  | cons kv rest ih =>
      obtain ⟨k', v⟩ := kv
      by_cases h : k' = k <;> simp [lookupField, h, ih]

theorem setField_map {α β : Type} (f : α → β) :
    ∀ (l : List (String × α)) (k : String) (v : α),
      setField (l.map (fun kv => (kv.1, f kv.2))) k (f v) =
        (setField l k v).map (fun kv => (kv.1, f kv.2)) := by
  intro l k v
  induction l with
  | nil => rfl
  | cons kv rest ih =>
      obtain ⟨k', w⟩ := kv
      by_cases h : k' = k <;> simp [setField, h, ih]

theorem objRefsLtB_mem {n : Nat} {l : JObj} (h : objRefsLtB n l = true) :
    ∀ kv ∈ l, valRefsLtB n kv.2 = true := by
  simp only [objRefsLtB, List.all_eq_true] at h
  exact h

theorem objRefsLtB_setField {n : Nat} {l : JObj} {k : String} {v : Val}
    (hl : objRefsLtB n l = true) (hv : valRefsLtB n v = true) :
    objRefsLtB n (setField l k v) = true := by
  simp only [objRefsLtB, List.all_eq_true]
  intro kv hkv
  rcases mem_setField _ _ _ kv hkv with h2 | h2
  · rw [h2]; exact hv
  · exact objRefsLtB_mem hl kv h2

theorem objRefsLtB_spreadMerge {n : Nat} :
    ∀ (src acc : JObj), objRefsLtB n acc = true → objRefsLtB n src = true →
      objRefsLtB n (spreadMerge acc src) = true := by
  intro src
  induction src with
  | nil => intro acc ha _; exact ha
  | cons kv rest ih =>
      intro acc ha hs
      obtain ⟨k, v⟩ := kv
      have hv : valRefsLtB n v = true := objRefsLtB_mem hs (k, v) (by simp)
      have hrest : objRefsLtB n rest = true := by
        simp only [objRefsLtB, List.all_eq_true] at hs ⊢
        exact fun x hx => hs x (by simp [hx])
      exact ih (setField acc k v) (objRefsLtB_setField ha hv) hrest

theorem validStoreB_alloc {σ : Store} {o : JObj} (hval : validStoreB σ = true)
    (ho : objRefsLtB σ.length o = true) : validStoreB (alloc σ o).1 = true := by
  simp only [validStoreB, List.all_eq_true, alloc, List.length_append, List.length_cons,
    List.length_nil]
  intro x hx
  rcases List.mem_append.mp hx with hx' | hx'
  · simp only [validStoreB, List.all_eq_true] at hval
    exact objRefsLtB_mono (by omega) (hval x hx')
  · rw [List.mem_singleton.mp hx']
    exact objRefsLtB_mono (by omega) ho

/-- `strip` at one more level of fuel, on an object reference. -/
theorem strip_succ_ref (σ : Store) (F : Nat) (r : Nat) :
    strip σ (F + 1) (.vRef r) = .pObj (stripFields σ F (getObj σ r)) := rfl

theorem stripFields_setField (σ : Store) (F : Nat) (l : JObj) (k : String) (v : Val) :
    stripFields σ F (setField l k v) = setField (stripFields σ F l) k (strip σ F v) :=
  (setField_map (fun x => strip σ F x) l k v).symm

theorem stripFields_spreadMerge (σ : Store) (F : Nat) :
    ∀ (src acc : JObj),
      stripFields σ F (spreadMerge acc src) =
        pSpread (stripFields σ F acc) (stripFields σ F src) := by
  intro src
  induction src with
  | nil => intro acc; rfl
  | cons kv rest ih =>
      intro acc
      obtain ⟨k, v⟩ := kv
      show stripFields σ F (spreadMerge (setField acc k v) rest) =
        pSpread (setField (stripFields σ F acc) k (strip σ F v)) (stripFields σ F rest)
      rw [ih (setField acc k v), stripFields_setField]

/-- Only a reference strips to an object node (and only with fuel left). -/
theorem strip_eq_pObj {σ : Store} {F : Nat} {v : Val} {l : List (String × PureVal)}
    (h : strip σ F v = .pObj l) : ∃ r F', v = .vRef r ∧ F = F' + 1 := by
  cases F with
  | zero => simp [strip] at h
  | succ F => cases v <;> simp [strip] at h ⊢

theorem lookupField_mem {α : Type} : ∀ {l : List (String × α)} {k : String} {v : α},
    lookupField l k = some v → (k, v) ∈ l := by
  intro l
  induction l with
  | nil => intro k v h; simp [lookupField] at h
  | cons kv rest ih =>
      intro k v h
      obtain ⟨k', w⟩ := kv
      simp only [lookupField] at h
      by_cases hk : k' = k
      · rw [if_pos hk] at h
        subst hk
        rw [Option.some.inj h]
        exact List.mem_cons_self _ _
      · rw [if_neg hk] at h
        exact List.mem_cons_of_mem _ (ih h)

theorem lookupField_stripFields (σ : Store) (F : Nat) (l : JObj) (k : String) :
    lookupField (stripFields σ F l) k = (lookupField l k).map (fun v => strip σ F v) :=
  lookupField_map _ l k

theorem pMergeVal_trunc : ∀ fuel, pMergeVal fuel .pTrunc .pTrunc = .pTrunc := by
  intro fuel
  cases fuel <;> rfl

theorem mergeFields_cons_child (child : Store → Nat → Nat → Store × Nat)
    (σ : Store) (acc : JObj) (key : String) (tr sr : Nat) (rest : JObj)
    (hl : lookupField acc key = some (.vRef tr)) :
    mergeFields child σ acc ((key, .vRef sr) :: rest) =
      mergeFields child (child σ tr sr).1
        (setField acc key (.vRef (child σ tr sr).2)) rest := by
  simp only [mergeFields, hl]

theorem mergeFields_cons_source (child : Store → Nat → Nat → Store × Nat)
    (σ : Store) (acc : JObj) (key : String) (sv : Val) (rest : JObj)
    (h : ∀ tr sr, ¬(lookupField acc key = some (.vRef tr) ∧ sv = .vRef sr)) :
    mergeFields child σ acc ((key, sv) :: rest) =
      mergeFields child σ (setField acc key sv) rest := by
  simp only [mergeFields]
  split
  · rename_i tr sr heq
    exact absurd ⟨heq, rfl⟩ (h tr sr)
  · rfl

theorem pMergeGo_cons_child (rec : PureVal → PureVal → PureVal)
    (acc : List (String × PureVal)) (key : String) (tf sf : List (String × PureVal))
    (rest : List (String × PureVal))
    (hl : lookupField acc key = some (.pObj tf)) :
    pMergeGo rec acc ((key, .pObj sf) :: rest) =
      pMergeGo rec (setField acc key (rec (.pObj tf) (.pObj sf))) rest := by
  simp only [pMergeGo, hl]

theorem pMergeGo_cons_source (rec : PureVal → PureVal → PureVal)
    (acc : List (String × PureVal)) (key : String) (sv : PureVal)
    (rest : List (String × PureVal))
    (h : ∀ tf sf, ¬(lookupField acc key = some (.pObj tf) ∧ sv = .pObj sf)) :
    pMergeGo rec acc ((key, sv) :: rest) = pMergeGo rec (setField acc key sv) rest := by
  simp only [pMergeGo]
  split
  · rename_i tf sf heq
    exact absurd ⟨heq, rfl⟩ (h tf sf)
  · rfl

theorem mergeFields_sim (fuel : Nat)
    (ihc : ∀ σ t s, validStoreB σ = true → t < σ.length → s < σ.length →
      validStoreB (mergeDeepAux fuel σ t s).1 = true ∧
        ∀ F, strip (mergeDeepAux fuel σ t s).1 F (.vRef (mergeDeepAux fuel σ t s).2) =
          pMergeVal fuel (strip σ F (.vRef t)) (strip σ F (.vRef s))) :
    ∀ (src : JObj) (σ : Store) (acc : JObj),
      validStoreB σ = true → objRefsLtB σ.length acc = true →
      objRefsLtB σ.length src = true →
      validStoreB (mergeFields (mergeDeepAux fuel) σ acc src).1 = true ∧
        objRefsLtB (mergeFields (mergeDeepAux fuel) σ acc src).1.length
          (mergeFields (mergeDeepAux fuel) σ acc src).2 = true ∧
        ∀ F, stripFields (mergeFields (mergeDeepAux fuel) σ acc src).1 F
            (mergeFields (mergeDeepAux fuel) σ acc src).2 =
          pMergeGo (pMergeVal fuel) (stripFields σ F acc) (stripFields σ F src) := by
  intro src
  induction src with
  | nil =>
      intro σ acc hval hacc _
      exact ⟨hval, hacc, fun F => rfl⟩
  | cons kv rest ihr =>
      intro σ acc hval hacc hsrc
      obtain ⟨key, sv⟩ := kv
      have hsv : valRefsLtB σ.length sv = true := objRefsLtB_mem hsrc (key, sv) (by simp)
      have hrest : objRefsLtB σ.length rest = true := by
        simp only [objRefsLtB, List.all_eq_true] at hsrc ⊢
        exact fun x hx => hsrc x (by simp [hx])
      by_cases hc : ∃ tr sr, lookupField acc key = some (.vRef tr) ∧ sv = .vRef sr
      · obtain ⟨tr, sr, hl, rfl⟩ := hc
        have htr : tr < σ.length := by
          have hm := objRefsLtB_mem hacc (key, .vRef tr) (lookupField_mem hl)
          simpa [valRefsLtB, decide_eq_true_eq] using hm
        have hsr : sr < σ.length := by
          simpa [valRefsLtB, decide_eq_true_eq] using hsv
        obtain ⟨hcv, hcs⟩ := ihc σ tr sr hval htr hsr
        have hle1 : storeLe σ (mergeDeepAux fuel σ tr sr).1 :=
          mergeDeepAux_storeLe fuel σ tr sr
        have hlen1 : σ.length ≤ (mergeDeepAux fuel σ tr sr).1.length := storeLe_length hle1
        have hacc' : objRefsLtB (mergeDeepAux fuel σ tr sr).1.length
            (setField acc key (.vRef (mergeDeepAux fuel σ tr sr).2)) = true := by
          apply objRefsLtB_setField (objRefsLtB_mono hlen1 hacc)
          simp only [valRefsLtB, decide_eq_true_eq]
          exact mergeDeepAux_ref_lt fuel σ tr sr
        have hrest' : objRefsLtB (mergeDeepAux fuel σ tr sr).1.length rest = true :=
          objRefsLtB_mono hlen1 hrest
        obtain ⟨hval2, hrefs2, hstrip2⟩ := ihr (mergeDeepAux fuel σ tr sr).1
          (setField acc key (.vRef (mergeDeepAux fuel σ tr sr).2)) hcv hacc' hrest'
        rw [mergeFields_cons_child _ _ _ _ _ _ _ hl]
        refine ⟨hval2, hrefs2, ?_⟩
        intro F
        rw [hstrip2 F]
        have et : stripFields (mergeDeepAux fuel σ tr sr).1 F rest =
            stripFields σ F rest := stripFields_storeLe hle1 hval F rest hrest
        have ea : stripFields (mergeDeepAux fuel σ tr sr).1 F acc =
            stripFields σ F acc := stripFields_storeLe hle1 hval F acc hacc
        rw [stripFields_setField, et, ea, hcs F]
        show pMergeGo (pMergeVal fuel)
            (setField (stripFields σ F acc) key
              (pMergeVal fuel (strip σ F (.vRef tr)) (strip σ F (.vRef sr)))) _ =
          pMergeGo (pMergeVal fuel) (stripFields σ F acc)
            ((key, strip σ F (.vRef sr)) :: stripFields σ F rest)
        cases F with
        | zero =>
            rw [pMergeGo_cons_source]
            · simp only [strip, pMergeVal_trunc]
            · intro tf sf hcontra
              have h1 := hcontra.1
              rw [lookupField_stripFields, hl] at h1
              simp [strip] at h1
        | succ F =>
            rw [strip_succ_ref σ F sr, strip_succ_ref σ F tr,
              pMergeGo_cons_child (pMergeVal fuel) _ _ (stripFields σ F (getObj σ tr)) _ _
                (by rw [lookupField_stripFields, hl, Option.map_some', strip_succ_ref])]
      · rw [mergeFields_cons_source _ _ _ _ _ _
          (fun tr sr hand => hc ⟨tr, sr, hand.1, hand.2⟩)]
        have hacc' : objRefsLtB σ.length (setField acc key sv) = true :=
          objRefsLtB_setField hacc hsv
        obtain ⟨hval2, hrefs2, hstrip2⟩ := ihr σ (setField acc key sv) hval hacc' hrest
        refine ⟨hval2, hrefs2, ?_⟩
        intro F
        rw [hstrip2 F, stripFields_setField]
        show pMergeGo (pMergeVal fuel)
            (setField (stripFields σ F acc) key (strip σ F sv)) (stripFields σ F rest) =
          pMergeGo (pMergeVal fuel) (stripFields σ F acc)
            ((key, strip σ F sv) :: stripFields σ F rest)
        rw [pMergeGo_cons_source]
        intro tf sf hcontra
        obtain ⟨h1, h2⟩ := hcontra
        obtain ⟨sr, F', rfl, hF⟩ := strip_eq_pObj h2
        rw [lookupField_stripFields] at h1
        cases hw : lookupField acc key with
        | none => rw [hw] at h1; simp at h1
        | some w =>
            rw [hw] at h1
            simp only [Option.map_some'] at h1
            obtain ⟨tr, _, rfl, _⟩ := strip_eq_pObj (Option.some.inj h1)
            exact hc ⟨tr, sr, hw, rfl⟩

theorem mergeDeepAux_sim :
    ∀ (fuel : Nat) (σ : Store) (t s : Nat),
      validStoreB σ = true → t < σ.length → s < σ.length →
      validStoreB (mergeDeepAux fuel σ t s).1 = true ∧
        ∀ F, strip (mergeDeepAux fuel σ t s).1 F (.vRef (mergeDeepAux fuel σ t s).2) =
          pMergeVal fuel (strip σ F (.vRef t)) (strip σ F (.vRef s)) := by
  intro fuel
  induction fuel with
  | zero =>
      intro σ t s hval ht hs
      have hobjt : objRefsLtB σ.length (getObj σ t) = true := by
        simp only [objRefsLtB, List.all_eq_true]
        exact fun kv hkv => validStore_getObj hval t kv hkv
      have hobjs : objRefsLtB σ.length (getObj σ s) = true := by
        simp only [objRefsLtB, List.all_eq_true]
        exact fun kv hkv => validStore_getObj hval s kv hkv
      have hspread : objRefsLtB σ.length (spreadMerge (getObj σ t) (getObj σ s)) = true :=
        objRefsLtB_spreadMerge _ _ hobjt hobjs
      constructor
      · exact validStoreB_alloc hval hspread
      · intro F
        have hunf : mergeDeepAux 0 σ t s =
            alloc σ (spreadMerge (getObj σ t) (getObj σ s)) := rfl
        rw [hunf]
        cases F with
        | zero => rfl
        | succ F =>
            rw [strip_succ_ref, getObj_alloc_new,
              stripFields_storeLe (storeLe_alloc _ _) hval F _ hspread,
              stripFields_spreadMerge, strip_succ_ref, strip_succ_ref]
            rfl
  | succ fuel ih =>
      intro σ t s hval ht hs
      have hobjt : objRefsLtB σ.length (getObj σ t) = true := by
        simp only [objRefsLtB, List.all_eq_true]
        exact fun kv hkv => validStore_getObj hval t kv hkv
      have hobjs : objRefsLtB σ.length (getObj σ s) = true := by
        simp only [objRefsLtB, List.all_eq_true]
        exact fun kv hkv => validStore_getObj hval s kv hkv
      obtain ⟨hval2, hrefs2, hstrip2⟩ :=
        mergeFields_sim fuel ih (getObj σ s) σ (getObj σ t) hval hobjt hobjs
      constructor
      · exact validStoreB_alloc hval2 hrefs2
      · intro F
        have hunf : mergeDeepAux (fuel + 1) σ t s =
            alloc (mergeFields (mergeDeepAux fuel) σ (getObj σ t) (getObj σ s)).1
              (mergeFields (mergeDeepAux fuel) σ (getObj σ t) (getObj σ s)).2 := rfl
        rw [hunf]
        cases F with
        | zero => rfl
        | succ F =>
            rw [strip_succ_ref, getObj_alloc_new,
              stripFields_storeLe (storeLe_alloc _ _) hval2 F _ hrefs2,
              hstrip2 F, strip_succ_ref, strip_succ_ref]
            rfl

/-! # Claims

Each claim of the specification is settled by one theorem below (with a
closed witness wherever the theorem carries a hypothesis). -/

theorem emitEvent_sink_bound (hashFn : String → String) (config : CanonConfig)
    (debug : Bool) (st : OrchState) (sig : Signal)
    (h : st.sinkEvents.length ≤ if st.emitted = true then 1 else 0) :
    (emitEvent hashFn config debug st sig).sinkEvents.length ≤
      if (emitEvent hashFn config debug st sig).emitted = true then 1 else 0 := by
  by_cases he : st.emitted = true
  · simp only [emitEvent, he, if_true]
    simpa [he] using h
  · have h0 : st.sinkEvents.length = 0 := by
      simp only [he, Bool.false_eq_true, if_false] at h
      omega
    simp only [emitEvent, he, Bool.false_eq_true, if_false]
    split
    · simp [h0]
    · split
      · simp [h0]
      · simp [h0]

theorem runSignals_sink_bound (hashFn : String → String) (config : CanonConfig)
    (debug : Bool) :
    ∀ (sigs : List Signal) (st : OrchState),
      st.sinkEvents.length ≤ (if st.emitted = true then 1 else 0) →
      (runSignals hashFn config debug st sigs).sinkEvents.length ≤ 1 := by
  intro sigs
  induction sigs with
  | nil =>
      intro st h
      simp only [runSignals, List.foldl_nil]
      exact le_trans h (by split <;> omega)
  | cons sig rest ih =>
      intro st h
      simp only [runSignals, List.foldl_cons]
      have := ih (emitEvent hashFn config debug st sig)
        (emitEvent_sink_bound hashFn config debug st sig h)
      simpa [runSignals] using this

/-- C1: at-most-once emission.  For every configuration (including any
custom sampler and any hash function), every initial event data and every
sequence of completion/abort signals delivered to one lifecycle instance:
(i) once the instance is marked emitted, any further signal is a complete
no-op (the state, heap included, is returned unchanged); (ii) processing
any signal leaves the instance marked emitted, so only the first delivered
signal ever does work; and (iii) the injected sink is invoked at most once
over the whole sequence.  (Signals are delivered in some sequential order,
as in the single-threaded event loop of the source language.) -/
theorem at_most_once_emission (hashFn : String → String) (config : CanonConfig)
    (debug : Bool) (σ0 : Store) (baseEvent : JObj) (startTime : ℚ)
    (sigs : List Signal) :
    (∀ (st : OrchState) (sig : Signal), st.emitted = true →
        emitEvent hashFn config debug st sig = st) ∧
      (∀ (st : OrchState) (sig : Signal),
        (emitEvent hashFn config debug st sig).emitted = true) ∧
      (runSignals hashFn config debug (initCanonContext σ0 baseEvent startTime)
          sigs).sinkEvents.length ≤ 1 := by
  refine ⟨?_, ?_, ?_⟩
  · intro st sig h
    simp [emitEvent, h]
  · intro st sig
    by_cases he : st.emitted = true
    · simp [emitEvent, he]
    · simp only [emitEvent, he, Bool.false_eq_true, if_false]
      split
      · rfl
      · split <;> rfl
  · exact runSignals_sink_bound hashFn config debug sigs _ (by simp [initCanonContext])

/-- Witness for C1: a duplicate finish/abort pair on a concrete instance
produces at most one sink call, and a signal on an already-emitted state is
a no-op. -/
theorem at_most_once_emission_witness :
    (emitEvent (fun s => s) {} false
        { store := [[]], builder := ⟨0, 0, false, false⟩, emitted := true,
          sinkEvents := [] } ⟨.success, 200, 0, 0⟩ =
      { store := [[]], builder := ⟨0, 0, false, false⟩, emitted := true,
        sinkEvents := [] }) ∧
      (runSignals (fun s => s) {} false (initCanonContext [] [] 0)
          [⟨.success, 200, 0, 0⟩, ⟨.aborted, 499, 0, 0⟩]).sinkEvents.length ≤ 1 :=
  ⟨(at_most_once_emission (fun s => s) {} false [] [] 0
      [⟨.success, 200, 0, 0⟩, ⟨.aborted, 499, 0, 0⟩]).1 _ _ rfl,
    (at_most_once_emission (fun s => s) {} false [] [] 0
      [⟨.success, 200, 0, 0⟩, ⟨.aborted, 499, 0, 0⟩]).2.2⟩

/-- C4: redaction is copy-only.  For every event, configuration and schema,
`applyRedaction` only appends to the heap, so every object of the input —
the event and all its nested objects, including those on targeted paths —
is unchanged; and when the configuration is absent or disabled the returned
record is a structurally equal (strip-for-strip, to the clone's depth) and
structurally independent (fresh root, appended region never referencing the
original) copy of the input. -/
theorem applyRedaction_copy_only (hashFn : String → String) (σ : Store) (event : Nat)
    (config : Option RedactionConfig) (schema : Option CanonSchema)
    (red : Store × Nat) (hred : red = applyRedaction hashFn σ event config schema) :
    (storeLe σ red.1 ∧ ∀ i, i < σ.length → getObj red.1 i = getObj σ i) ∧
      ((config = none ∨ ∃ cfg, config = some cfg ∧ cfg.enabled = false) →
        σ.length ≤ red.2 ∧ newRegionClosed σ red.1 ∧
          ∀ F, F ≤ σ.length + 1 →
            strip red.1 F (.vRef red.2) = strip σ F (.vRef event)) := by
  subst hred
  constructor
  · have hle : storeLe σ (applyRedaction hashFn σ event config schema).1 := by
      cases config with
      | none => exact snapshotObj_storeLe σ event
      | some cfg =>
          simp only [applyRedaction]
          by_cases he : cfg.enabled = false
          · rw [if_pos he]
            exact snapshotObj_storeLe σ event
          · rw [if_neg he]
            exact storeLe_trans (snapshotObj_storeLe σ event)
              (redactLoop_storeLe _ _ _ _ _ _)
    exact ⟨hle, fun i hi => getObj_storeLe hle hi⟩
  · rintro (rfl | ⟨cfg, rfl, hcfg⟩)
    · obtain ⟨hge, hreg, hstrip⟩ := snapshotObj_spec σ event
      refine ⟨hge, hreg, ?_⟩
      intro F hF
      have := hstrip _ (storeLe_refl _) F
      rw [show applyRedaction hashFn σ event none schema = snapshotObj σ event from rfl]
      rw [this, truncate_nullify_strip σ F _ (by omega)]
    · have hsame : applyRedaction hashFn σ event (some cfg) schema = snapshotObj σ event := by
        simp only [applyRedaction]
        rw [if_pos hcfg]
      rw [hsame]
      obtain ⟨hge, hreg, hstrip⟩ := snapshotObj_spec σ event
      refine ⟨hge, hreg, ?_⟩
      intro F hF
      rw [hstrip _ (storeLe_refl _) F, truncate_nullify_strip σ F _ (by omega)]

/-- Witness for C4: a concrete nested event under an enabled mask
configuration (frame part) and under a disabled configuration (copy
part). -/
theorem applyRedaction_copy_only_witness :
    ((storeLe [[("user", .vRef 1)], [("email", .vStr "a@b.com")]]
        (applyRedaction (fun s => s) [[("user", .vRef 1)], [("email", .vStr "a@b.com")]] 0
          (some { enabled := true, strategy := some .mask, fields := ["user.email"] })
          none).1 ∧
      ∀ i, i < ([[("user", .vRef 1)], [("email", .vStr "a@b.com")]] : Store).length →
        getObj (applyRedaction (fun s => s) [[("user", .vRef 1)], [("email", .vStr "a@b.com")]] 0
          (some { enabled := true, strategy := some .mask, fields := ["user.email"] })
          none).1 i =
        getObj [[("user", .vRef 1)], [("email", .vStr "a@b.com")]] i) ∧
      (∀ F, F ≤ ([[("user", .vRef 1)], [("email", .vStr "a@b.com")]] : Store).length + 1 →
        strip (applyRedaction (fun s => s) [[("user", .vRef 1)], [("email", .vStr "a@b.com")]] 0
            (some { enabled := false, strategy := none, fields := [] }) none).1 F
            (.vRef (applyRedaction (fun s => s)
              [[("user", .vRef 1)], [("email", .vStr "a@b.com")]] 0
              (some { enabled := false, strategy := none, fields := [] }) none).2) =
          strip [[("user", .vRef 1)], [("email", .vStr "a@b.com")]] F (.vRef 0))) :=
  ⟨(applyRedaction_copy_only (fun s => s) [[("user", .vRef 1)], [("email", .vStr "a@b.com")]] 0
      (some { enabled := true, strategy := some .mask, fields := ["user.email"] }) none
      _ rfl).1,
    ((applyRedaction_copy_only (fun s => s) [[("user", .vRef 1)], [("email", .vStr "a@b.com")]] 0
      (some { enabled := false, strategy := none, fields := [] }) none
      _ rfl).2 (Or.inr ⟨_, rfl, rfl⟩)).2.2⟩

theorem finalize_store_shape (σ : Store) (b : BuilderRec) (o1 : RequestOutcome)
    (sc1 now1 : ℚ) (hf : b.finalized = false) (hval : validStoreB σ = true) :
    ∃ σ3, validStoreB σ3 = true ∧ σ3.length = σ.length ∧
      EventBuilder.finalize σ b o1 sc1 now1 =
        ((snapshotObj σ3 b.event).1, { b with finalized := true },
          (snapshotObj σ3 b.event).2) := by
  simp only [EventBuilder.finalize, hf, Bool.false_eq_true, if_false]
  set σ1 := updateObj σ b.event (fun fields =>
      setField fields "duration_ms" (.vNum (durationMs b.startTime now1))) with hs1
  set σ2 := updateObj σ1 b.event (fun fields =>
      setField fields "status_code" (.vNum sc1)) with hs2
  have hv1 : validStoreB σ1 = true := by
    rw [hs1]; exact validStoreB_updateObj_setField _ _ _ hval rfl
  have hl1 : σ1.length = σ.length := by rw [hs1, length_updateObj]
  have hv2 : validStoreB σ2 = true := by
    rw [hs2]; exact validStoreB_updateObj_setField _ _ _ hv1 rfl
  have hl2 : σ2.length = σ.length := by rw [hs2, length_updateObj, hl1]
  split
  · split
    · exact ⟨updateObj σ2 b.event (fun fields => setField fields "outcome" (.vStr "aborted")),
        validStoreB_updateObj_setField _ _ _ hv2 rfl, by rw [length_updateObj, hl2], rfl⟩
    · split
      · exact ⟨updateObj σ2 b.event (fun fields => setField fields "outcome" (.vStr "error")),
          validStoreB_updateObj_setField _ _ _ hv2 rfl, by rw [length_updateObj, hl2], rfl⟩
      · refine ⟨updateObj σ2 b.event (fun fields => setField fields "outcome" o1.toVal),
          validStoreB_updateObj_setField _ _ _ hv2 ?_, by rw [length_updateObj, hl2], rfl⟩
        cases o1 <;> rfl
  · exact ⟨σ2, hv2, hl2, rfl⟩

/-- C3: finalize idempotence.  A second `finalize`, whatever its arguments,
returns the same builder record, only appends to the heap (every field the
first call fixed — `duration_ms`, `status_code`, `outcome` and all others —
keeps its value), and returns a snapshot structurally equal (strip for
strip, to the store's depth) to the first call's snapshot. -/
theorem finalize_idempotent (σ : Store) (b : BuilderRec) (o1 : RequestOutcome)
    (sc1 now1 : ℚ) (o2 : RequestOutcome) (sc2 now2 : ℚ)
    (fin1 fin2 : Store × BuilderRec × Nat)
    (h1 : fin1 = EventBuilder.finalize σ b o1 sc1 now1)
    (h2 : fin2 = EventBuilder.finalize fin1.1 fin1.2.1 o2 sc2 now2)
    (hval : validStoreB σ = true) (hev : b.event < σ.length) :
    fin2.2.1 = fin1.2.1 ∧
      storeLe fin1.1 fin2.1 ∧
      (∀ k, lookupField (getObj fin2.1 fin1.2.1.event) k =
        lookupField (getObj fin1.1 fin1.2.1.event) k) ∧
      ∀ F, F ≤ σ.length + 1 →
        strip fin2.1 F (.vRef fin2.2.2) = strip fin2.1 F (.vRef fin1.2.2) := by
  have key : ∃ σ3, validStoreB σ3 = true ∧ σ3.length = σ.length ∧
      fin1.1 = (snapshotObj σ3 b.event).1 ∧ fin1.2.2 = (snapshotObj σ3 b.event).2 ∧
      fin1.2.1.finalized = true ∧ fin1.2.1.event = b.event := by
    by_cases hf : b.finalized = true
    · subst h1
      simp only [EventBuilder.finalize, hf, if_true]
      refine ⟨σ, hval, ?_, ?_, ?_, ?_, ?_⟩ <;> first | rfl | trivial
    · obtain ⟨σ3, hv3, hl3, heq⟩ := finalize_store_shape σ b o1 sc1 now1
        (Bool.not_eq_true _ ▸ hf) hval
      subst h1
      rw [heq]
      refine ⟨σ3, hv3, hl3, ?_, ?_, ?_, ?_⟩ <;> rfl
  obtain ⟨σ3, hv3, hl3, he1, he2, hbf, hbe⟩ := key
  have hev3 : b.event < σ3.length := by omega
  subst h2
  simp only [EventBuilder.finalize, hbf, if_true]
  have hevlt : fin1.2.1.event < fin1.1.length := by
    rw [hbe, he1]
    exact Nat.lt_of_lt_of_le hev3 (storeLe_length (snapshotObj_storeLe σ3 b.event))
  refine ⟨trivial, snapshotObj_storeLe _ _, ?_, ?_⟩
  · intro k
    rw [getObj_storeLe (snapshotObj_storeLe _ _) hevlt]
  · intro F hF
    have := snapshot_twice σ3 b.event hv3 hev3 F (by omega)
    rw [hbe, he1, he2]
    exact this

/-- Witness for C3: finalizing twice on a concrete builder. -/
theorem finalize_idempotent_witness :
    (validStoreB [[("a", .vNum 1)]] = true) ∧
      ((EventBuilder.finalize
          (EventBuilder.finalize [[("a", .vNum 1)]] ⟨0, 0, false, false⟩ .success 200 7).1
          (EventBuilder.finalize [[("a", .vNum 1)]] ⟨0, 0, false, false⟩ .success 200 7).2.1
          .aborted 499 9).2.1 =
        (EventBuilder.finalize [[("a", .vNum 1)]] ⟨0, 0, false, false⟩ .success 200 7).2.1) :=
  ⟨by decide,
    (finalize_idempotent [[("a", .vNum 1)]] ⟨0, 0, false, false⟩ .success 200 7 .aborted 499 9
      _ _ rfl rfl (by decide) (by decide)).1⟩

/-- C2 counterexample: the claim's policy does not hold for every prior
sequence of enrich/set/markError calls.  Concretely, after
`markError(null)` followed by `set("outcome", "success")`, a first
`finalize('success', 200)` leaves the outcome `"success"` although an error
was marked (`finalize` only applies the policy when the outcome field is
still unset, and `set` can overwrite it after `markError`). -/
theorem outcome_policy_counterexample : ¬ outcomeClaimAllSequences := by
  intro h
  have hc := h [] [] 0 [.markError .pNull, .set "outcome" (.pStr "success")] .success 200 0
  exact absurd hc (by decide)

/-- C2 amended: the outcome-resolution policy — error marked → `error`,
else forced `aborted` → `aborted`, else status ≥ 500 → `error`, else the
caller's outcome — holds for every prior sequence of enrich/set/markError
calls provided the `outcome` and `error` fields are written only through
`markError` (no enrich payload or set path targets them, and the initial
data does not contain them). -/
theorem finalize_outcome_policy (σ0 : Store) (init : JObj) (start : ℚ) (ops : List BOp)
    (hint : RequestOutcome) (statusCode now : ℚ)
    (hinitO : lookupField init "outcome" = none)
    (hinitE : lookupField init "error" = none)
    (hops : ∀ op ∈ ops, op.writesKey "outcome" = false ∧ op.writesKey "error" = false) :
    finalizedOutcome σ0 init start ops hint statusCode now =
      some (outcomePolicySpec (ops.any BOp.isMarkError) hint statusCode).toVal := by
  have hg : getObj (createEventBuilder σ0 init start).1
      (createEventBuilder σ0 init start).2.event = init := getObj_alloc_new σ0 init
  have hinv0 : outcomeInv (createEventBuilder σ0 init start) false := by
    refine ⟨rfl, alloc_ref_lt σ0 init, ?_⟩
    simp only [Bool.false_eq_true, if_false]
    rw [hg]
    exact ⟨hinitO, hinitE⟩
  have hrun := outcomeInv_runBOps ops _ false hops hinv0
  simp only [Bool.false_or] at hrun
  have hfin := finalize_outcome_of_inv (runBOps (createEventBuilder σ0 init start) ops)
    (ops.any BOp.isMarkError) hint statusCode now hrun
  simpa [finalizedOutcome] using hfin

/-- Witness for the amended C2: one `markError` and a 200 finalize with
hint `success` yields outcome `error`. -/
theorem finalize_outcome_policy_witness :
    lookupField ([] : JObj) "outcome" = none ∧
      lookupField ([] : JObj) "error" = none ∧
      (∀ op ∈ ([.markError .pNull] : List BOp),
        op.writesKey "outcome" = false ∧ op.writesKey "error" = false) ∧
      finalizedOutcome [] [] 0 [.markError .pNull] .success 200 0 =
        some (outcomePolicySpec (([.markError .pNull] : List BOp).any BOp.isMarkError)
          .success 200).toVal :=
  ⟨rfl, rfl, by decide,
    finalize_outcome_policy [] [] 0 [.markError .pNull] .success 200 0 rfl rfl (by decide)⟩

/-- C8: for every record whose `status_code` is 503 and every rules-object
sampling configuration (no custom decision function), `shouldSample` keeps
the event, whatever `sampleRateSuccess` (including 0) and whatever random
draw: the `status_code >= 500` rule fires first. -/
theorem shouldSample_keeps_503 (σ : Store) (event : Val) (rate slow : Option ℚ)
    (rnd : ℚ)
    (h : propLookup σ event "status_code" = some (.vNum 503)) :
    shouldSample σ event
      (some (.rules { sampleRateSuccess := rate, slowThresholdMs := slow, custom := none }))
      rnd = true := by
  simp only [shouldSample, shouldSampleDefault, h, numOrZero]
  norm_num

/-- Witness for C8: a concrete 503 event sampled at rate 0. -/
theorem shouldSample_keeps_503_witness :
    propLookup [[("status_code", .vNum 503)]] (.vRef 0) "status_code" =
        some (.vNum 503) ∧
      shouldSample [[("status_code", .vNum 503)]] (.vRef 0)
        (some (.rules { sampleRateSuccess := some 0, slowThresholdMs := none,
                        custom := none })) (1 / 2) = true :=
  ⟨rfl, shouldSample_keeps_503 _ _ _ _ _ rfl⟩

/-- C10: with no schema, validation returns no warnings, its verdict is
exactly "all eight built-in required fields are present per `hasPath`",
and the `strict` flag has no effect on the result. -/
theorem validateSchema_no_schema (σ : Store) (event : Val) (strict strict' : Bool) :
    (validateSchema σ event none strict).warnings = [] ∧
      ((validateSchema σ event none strict).valid = true ↔
        ∀ f ∈ BUILT_IN_REQUIRED, hasPathVal σ event f = true) ∧
      validateSchema σ event none strict = validateSchema σ event none strict' := by
  refine ⟨rfl, ?_, rfl⟩
  simp only [validateSchema, List.isEmpty_iff, List.map_eq_nil_iff,
    List.filter_eq_nil_iff, Bool.not_eq_true', Bool.not_eq_false]

/-- C9 (implicit): every redaction strategy first stringifies a value that
is neither `null` nor `undefined` (`String(value)`), so redacting any such
value — in particular a number, boolean, object or array — always produces
a string, changing the field's runtime type: `mask` masks the stringified
value, `hash` hashes it, `drop` yields the literal `"[REDACTED]"`. -/
theorem redactValue_coerces_to_string (hashFn : String → String) (v : Val)
    (h1 : v ≠ .vNull) (h2 : v ≠ .vUndef) :
    redactValue hashFn v .mask = .vStr (maskValue (jsToString v)) ∧
      redactValue hashFn v .hash = .vStr (hashFn (jsToString v)) ∧
      redactValue hashFn v .drop = .vStr "[REDACTED]" := by
  simp [redactValue, h1, h2]

/-- Witness for C9: redacting the number 42 under each strategy. -/
theorem redactValue_coerces_to_string_witness :
    (Val.vNum 42 ≠ .vNull) ∧ (Val.vNum 42 ≠ .vUndef) ∧
      (redactValue (fun s => s) (.vNum 42) .mask =
          .vStr (maskValue (jsToString (.vNum 42))) ∧
        redactValue (fun s => s) (.vNum 42) .hash =
          .vStr ((fun s : String => s) (jsToString (.vNum 42))) ∧
        redactValue (fun s => s) (.vNum 42) .drop = .vStr "[REDACTED]") :=
  ⟨by decide, by decide,
    redactValue_coerces_to_string (fun s => s) (.vNum 42) (by decide) (by decide)⟩

/-- Masking every domain label but the last is: map the masking over the
initial labels and keep the last one. -/
theorem maskDomainParts_eq (parts : List String) (hne : parts ≠ []) :
    maskDomainParts parts = parts.dropLast.map maskLabel ++ [parts.getLastD ""] := by
  induction parts with
  | nil => exact absurd rfl hne
  | cons p rest ih =>
      cases rest with
      | nil => simp [maskDomainParts]
      | cons q rest' =>
          simp only [maskDomainParts, ih (by simp), List.dropLast_cons₂,
            List.map_cons, List.cons_append, List.getLastD_cons]

theorem splitOnChar_ne_nil (c : Char) (s : String) : splitOnChar c s ≠ [] := by
  have h : s.toList.splitOn c ≠ [] := by
    simp [List.splitOn]
    exact List.splitOnP_ne_nil _ s.toList
  simpa [splitOnChar, List.map_eq_nil_iff] using h

/-- C5: the mask strategy contract, covering every string.  Strings of
length at most two become all asterisks of the same length; longer strings
without `@` keep their first and last character with an all-asterisk
interior; for longer strings with `@` — which are exactly those whose split
on `@` has a local part and a domain — the local part keeps its first
character (masking the rest) and every domain label except the last is
masked (first character kept, rest asterisks); and masking
`"john@example.com"` yields `"j***@e******.com"` — exactly one `@`,
starting with `j`, ending with `m`, containing an asterisk. -/
theorem maskValue_contract (s : String) :
    (s.length ≤ 2 → maskValue s = starRepeat s.length) ∧
      (2 < s.length → strContainsChar s '@' = false →
        maskValue s = s.take 1 ++ starRepeat (s.length - 2) ++ s.takeRight 1) ∧
      (∀ (lp dom : String) (restParts : List String),
        2 < s.length → strContainsChar s '@' = true →
        splitOnChar '@' s = lp :: dom :: restParts →
        maskValue s =
          (if 1 < lp.length then lp.take 1 ++ starRepeat (lp.length - 1) else "*")
            ++ "@" ++
            String.intercalate "."
              ((splitOnChar '.' dom).dropLast.map maskLabel ++
                [(splitOnChar '.' dom).getLastD ""])) ∧
      maskValue "john@example.com" = "j***@e******.com" ∧
      (maskValue "john@example.com").toList.count '@' = 1 ∧
      (maskValue "john@example.com").toList.headD ' ' = 'j' ∧
      (maskValue "john@example.com").toList.getLastD ' ' = 'm' ∧
      '*' ∈ (maskValue "john@example.com").toList := by
  refine ⟨?_, ?_, ?_, by decide, by decide, by decide, by decide, by decide⟩
  · intro h
    simp [maskValue, h]
  · intro h hat
    have hmax : max 1 (s.length - 2) = s.length - 2 := by omega
    simp [maskValue, Nat.not_le.mpr h, hat, hmax]
  · intro lp dom restParts h hat hsplit
    have hdp : splitOnChar '.' dom ≠ [] := splitOnChar_ne_nil '.' dom
    simp only [maskValue, Nat.not_le.mpr h, if_false, hat, if_true, hsplit,
      List.headD_cons, List.drop_succ_cons, List.drop_zero,
      maskDomainParts_eq _ hdp]
    by_cases hlp : 1 < lp.length
    · have hmax : max 1 (lp.length - 1) = lp.length - 1 := by omega
      simp [hlp, hmax]
    · simp [hlp]

/-- Witness for C5: each clause exercised at a concrete input — `"ab"`
(length at most two), `"secret"` (no `@`), `"john@example.com"` (the email
clause and the round-trip shape). -/
theorem maskValue_contract_witness :
    ("ab".length ≤ 2 ∧ maskValue "ab" = starRepeat "ab".length) ∧
      (2 < "secret".length ∧ strContainsChar "secret" '@' = false ∧
        maskValue "secret" =
          "secret".take 1 ++ starRepeat ("secret".length - 2) ++
            "secret".takeRight 1) ∧
      (2 < "john@example.com".length ∧
        strContainsChar "john@example.com" '@' = true ∧
        splitOnChar '@' "john@example.com" = ["john", "example.com"] ∧
        maskValue "john@example.com" = "j***@e******.com" ∧
        (maskValue "john@example.com").toList.count '@' = 1) :=
  ⟨⟨by decide, (maskValue_contract "ab").1 (by decide)⟩,
    ⟨by decide, by decide,
      (maskValue_contract "secret").2.1 (by decide) (by decide)⟩,
    ⟨by decide, by decide, by decide,
      by
        rw [(maskValue_contract "john@example.com").2.2.1 "john" "example.com" []
          (by decide) (by decide) (by decide)]
        decide,
      (maskValue_contract "john@example.com").2.2.2.2.1⟩⟩


theorem hasPathParts_cons (σ : Store) (v : HostVal) (k : String) (rest : List String) :
    hasPathParts σ v (k :: rest) =
      (jsInB σ v k && hasPathParts σ (jsReadH σ v k) rest) := by
  match v with
  | .ofVal .vNull => rfl
  | .ofVal .vUndef => rfl
  | .ofVal (.vStr s) => rfl
  | .ofVal (.vNum q) => rfl
  | .ofVal (.vBool b) => rfl
  | .hostFn => rfl
  | .ofVal (.vRef r) =>
      cases hl : lookupField (getObj σ r) k with
      | some w => simp [hasPathParts, jsInB, jsReadH, hl]
      | none =>
          by_cases hp : k = "__proto__"
          · subst hp
            have hc : "__proto__" ∈ OBJECT_PROTOTYPE_KEYS := by decide
            simp [hasPathParts, jsInB, jsReadH, hl, hc]
          · cases hm : OBJECT_PROTOTYPE_KEYS.contains k <;>
              simp [hasPathParts, jsInB, jsReadH, hl, hp, hm]
  | .ofVal (.vArr elems) =>
      cases ha : arrLookup elems k with
      | some w => simp [hasPathParts, jsInB, jsReadH, ha]
      | none =>
          by_cases hp : k = "__proto__"
          · subst hp
            have hc : "__proto__" ∈ OBJECT_PROTOTYPE_KEYS := by decide
            have hc2 : "__proto__" ∉ ARRAY_PROTOTYPE_KEYS := by decide
            simp [hasPathParts, jsInB, jsReadH, ha, hc, hc2]
          · cases h1 : ARRAY_PROTOTYPE_KEYS.contains k <;>
              cases h2 : OBJECT_PROTOTYPE_KEYS.contains k <;>
              simp [hasPathParts, jsInB, jsReadH, ha, hp, h1, h2]
  | .objProto =>
      by_cases hp : k = "__proto__"
      · subst hp
        have hc : "__proto__" ∈ OBJECT_PROTOTYPE_KEYS := by decide
        simp [hasPathParts, jsInB, jsReadH, hc]
      · cases hm : OBJECT_PROTOTYPE_KEYS.contains k <;>
          simp [hasPathParts, jsInB, jsReadH, hp, hm]
  | .arrProto =>
      by_cases hlen : k = "length"
      · subst hlen
        simp [hasPathParts, jsInB, jsReadH]
      · by_cases hp : k = "__proto__"
        · subst hp
          have hc : "__proto__" ∈ OBJECT_PROTOTYPE_KEYS := by decide
          have hc2 : "__proto__" ∉ ARRAY_PROTOTYPE_KEYS := by decide
          simp [hasPathParts, jsInB, jsReadH, hc, hc2]
        · cases h1 : ARRAY_PROTOTYPE_KEYS.contains k <;>
            cases h2 : OBJECT_PROTOTYPE_KEYS.contains k <;>
            simp [hasPathParts, jsInB, jsReadH, hlen, hp, h1, h2]

/-- `hasPathParts` decides the in-operator chain property. -/
theorem hasPathParts_iff_inKeyChain (σ : Store) :
    ∀ (parts : List String) (v : HostVal),
      hasPathParts σ v parts = true ↔ InKeyChain σ v parts := by
  intro parts
  induction parts with
  | nil =>
      intro v
      exact ⟨fun _ => .nil v, fun _ => rfl⟩
  | cons k rest ih =>
      intro v
      rw [hasPathParts_cons, Bool.and_eq_true]
      constructor
      · intro h
        exact .cons v k rest h.1 ((ih _).mp h.2)
      · intro h
        cases h with
        | cons _ _ _ hin hch => exact ⟨hin, (ih _).mpr hch⟩

/-- C7 counterexample: the claimed own-key-only semantics is false of the
program.  `hasPath({}, "toString")` is true — the `in` operator consults
the prototype chain, and `toString` is inherited from `Object.prototype` —
yet `toString` is not an own key of the empty object, so `hasPath` does
not return true only when every segment is an own key. -/
theorem hasPath_own_key_counterexample :
    ¬ (∀ (σ : Store) (root : Val) (path : String),
        hasPathVal σ root path = true → OwnKeyChain σ root (splitPath path)) := by
  intro h
  have h1 : hasPathVal [[]] (.vRef 0) "toString" = true := by decide
  have h2 := h [[]] (.vRef 0) "toString" h1
  have h3 : splitPath "toString" = ["toString"] := by decide
  rw [h3] at h2
  cases h2 with
  | cons v k rest w hk hrest =>
      simp [propLookup, getObj, lookupField] at hk

/-- C7 (amended): `hasPath` follows the JavaScript `in` operator.  It is
true exactly when every segment of the dot-path passes the in-check on the
corresponding intermediate — an own key, or a property inherited from the
standard prototype objects — the next intermediate being the value the
property access yields.  On a single segment over a plain object this is
own-key presence or an `Object.prototype` property name: a key present
with an `undefined` (or `null`) value yields true, and an absent key
yields false exactly when it does not name an inherited property. -/
theorem hasPath_in_operator_semantics (σ : Store) (root : Val) (path : String) :
    (hasPathVal σ root path = true ↔ InKeyChain σ (.ofVal root) (splitPath path)) ∧
      (∀ (r : Nat) (k : String),
        hasPathParts σ (.ofVal (.vRef r)) [k] =
          ((lookupField (getObj σ r) k).isSome || OBJECT_PROTOTYPE_KEYS.contains k)) ∧
      (∀ (r : Nat) (k : String), lookupField (getObj σ r) k = some .vUndef →
        hasPathParts σ (.ofVal (.vRef r)) [k] = true) ∧
      (∀ (r : Nat) (k : String), lookupField (getObj σ r) k = none →
        OBJECT_PROTOTYPE_KEYS.contains k = false →
        hasPathParts σ (.ofVal (.vRef r)) [k] = false) := by
  have hsingle : ∀ (r : Nat) (k : String),
      hasPathParts σ (.ofVal (.vRef r)) [k] =
        ((lookupField (getObj σ r) k).isSome || OBJECT_PROTOTYPE_KEYS.contains k) := by
    intro r k
    rw [hasPathParts_cons]
    simp [jsInB, hasPathParts]
  refine ⟨hasPathParts_iff_inKeyChain σ (splitPath path) (.ofVal root), hsingle,
    ?_, ?_⟩
  · intro r k hk
    rw [hsingle r k, hk]
    rfl
  · intro r k hk hm
    rw [hsingle r k, hk, hm]
    rfl

/-- Witness for C7: over the one-object store `{a: undefined}`, the key
`a` — present with value `undefined` — yields true; the inherited name
`toString` is decided by the own-or-prototype disjunction; the absent
key `zz` yields false. -/
theorem hasPath_in_operator_semantics_witness :
    (lookupField (getObj [[("a", Val.vUndef)]] 0) "a" = some .vUndef ∧
      hasPathParts [[("a", Val.vUndef)]] (.ofVal (.vRef 0)) ["a"] = true) ∧
      (hasPathParts [[("a", Val.vUndef)]] (.ofVal (.vRef 0)) ["toString"] =
        ((lookupField (getObj [[("a", Val.vUndef)]] 0) "toString").isSome ||
          OBJECT_PROTOTYPE_KEYS.contains "toString")) ∧
      (lookupField (getObj [[("a", Val.vUndef)]] 0) "zz" = none ∧
        OBJECT_PROTOTYPE_KEYS.contains "zz" = false ∧
        hasPathParts [[("a", Val.vUndef)]] (.ofVal (.vRef 0)) ["zz"] = false) :=
  ⟨⟨by decide,
      (hasPath_in_operator_semantics [[("a", Val.vUndef)]] (.vRef 0) "a").2.2.1 0 "a"
        (by decide)⟩,
    (hasPath_in_operator_semantics [[("a", Val.vUndef)]] (.vRef 0) "a").2.1 0 "toString",
    ⟨by decide, by decide,
      (hasPath_in_operator_semantics [[("a", Val.vUndef)]] (.vRef 0) "a").2.2.2 0 "zz"
        (by decide) (by decide)⟩⟩

/-- C6: the `mergeDeep` contract.  For every closed store and pair of object
references, (a) the heap cells of both inputs are untouched (the result store
only extends the input store, so neither input map is mutated), and (b) at
every observation depth the tree of the result equals the specification merge
`pMergeVal MAX_MERGE_DEPTH` of the trees of the inputs: keys present in both
sides where both values are plain maps are merged recursively, otherwise the
source value wins (arrays and primitives replaced wholesale, never
concatenated), and past depth 5 the remaining levels are merged by flat
overwrite, so the function is total on arbitrarily deep input. -/
theorem mergeDeep_contract (σ : Store) (t s : Nat)
    (hval : validStoreB σ = true) (ht : t < σ.length) (hs : s < σ.length) :
    (storeLe σ (mergeDeep σ t s).1 ∧
      ∀ i, i < σ.length → getObj (mergeDeep σ t s).1 i = getObj σ i) ∧
    ∀ F, strip (mergeDeep σ t s).1 F (.vRef (mergeDeep σ t s).2) =
      pMergeVal MAX_MERGE_DEPTH (strip σ F (.vRef t)) (strip σ F (.vRef s)) := by
  refine ⟨⟨mergeDeep_storeLe σ t s,
    fun i hi => getObj_storeLe (mergeDeep_storeLe σ t s) hi⟩, ?_⟩
  exact (mergeDeepAux_sim MAX_MERGE_DEPTH σ t s hval ht hs).2

/-- Witness for C6: a four-cell store in which the target `{a: 1, b: ref 1}`
and the source `{b: ref 3, c: true}` share the plain-map key `b`. -/
theorem mergeDeep_contract_witness :
    validStoreB [[("a", Val.vNum 1), ("b", Val.vRef 1)], [("x", Val.vStr "t")],
        [("b", Val.vRef 3), ("c", Val.vBool true)], [("y", Val.vStr "s")]] = true ∧
      0 < ([[("a", Val.vNum 1), ("b", Val.vRef 1)], [("x", Val.vStr "t")],
        [("b", Val.vRef 3), ("c", Val.vBool true)],
        [("y", Val.vStr "s")]] : Store).length ∧
      2 < ([[("a", Val.vNum 1), ("b", Val.vRef 1)], [("x", Val.vStr "t")],
        [("b", Val.vRef 3), ("c", Val.vBool true)],
        [("y", Val.vStr "s")]] : Store).length ∧
      ((storeLe [[("a", Val.vNum 1), ("b", Val.vRef 1)], [("x", Val.vStr "t")],
          [("b", Val.vRef 3), ("c", Val.vBool true)], [("y", Val.vStr "s")]]
          (mergeDeep [[("a", Val.vNum 1), ("b", Val.vRef 1)], [("x", Val.vStr "t")],
            [("b", Val.vRef 3), ("c", Val.vBool true)], [("y", Val.vStr "s")]] 0 2).1 ∧
        ∀ i, i < ([[("a", Val.vNum 1), ("b", Val.vRef 1)], [("x", Val.vStr "t")],
            [("b", Val.vRef 3), ("c", Val.vBool true)],
            [("y", Val.vStr "s")]] : Store).length →
          getObj (mergeDeep [[("a", Val.vNum 1), ("b", Val.vRef 1)], [("x", Val.vStr "t")],
              [("b", Val.vRef 3), ("c", Val.vBool true)], [("y", Val.vStr "s")]] 0 2).1 i =
            getObj [[("a", Val.vNum 1), ("b", Val.vRef 1)], [("x", Val.vStr "t")],
              [("b", Val.vRef 3), ("c", Val.vBool true)], [("y", Val.vStr "s")]] i) ∧
      ∀ F, strip (mergeDeep [[("a", Val.vNum 1), ("b", Val.vRef 1)], [("x", Val.vStr "t")],
            [("b", Val.vRef 3), ("c", Val.vBool true)], [("y", Val.vStr "s")]] 0 2).1 F
          (.vRef (mergeDeep [[("a", Val.vNum 1), ("b", Val.vRef 1)], [("x", Val.vStr "t")],
            [("b", Val.vRef 3), ("c", Val.vBool true)], [("y", Val.vStr "s")]] 0 2).2) =
        pMergeVal MAX_MERGE_DEPTH
          (strip [[("a", Val.vNum 1), ("b", Val.vRef 1)], [("x", Val.vStr "t")],
            [("b", Val.vRef 3), ("c", Val.vBool true)], [("y", Val.vStr "s")]] F (.vRef 0))
          (strip [[("a", Val.vNum 1), ("b", Val.vRef 1)], [("x", Val.vStr "t")],
            [("b", Val.vRef 3), ("c", Val.vBool true)], [("y", Val.vStr "s")]] F
            (.vRef 2))) :=
  ⟨by decide, by decide, by decide,
    mergeDeep_contract [[("a", Val.vNum 1), ("b", Val.vRef 1)], [("x", Val.vStr "t")],
      [("b", Val.vRef 3), ("c", Val.vBool true)], [("y", Val.vStr "s")]] 0 2
      (by decide) (by decide) (by decide)⟩

end Canon
